import Mathlib

/-!
# frr_exporter: the PIM neighbor collector (`collector/pim.go`)

A shallow embedding of `parseHMS`, `processPIMNeighbors` and
`pimCollector.Update`, with the properties of the normalization pipeline
stated over it.

Conventions of the embedding.

* A Go `string` is a Lean `String`; the scanner reads it rune by rune.
* Go `int` is the 64-bit two's-complement integer; it is an `Int` that is
  reduced by `wrapInt` after every arithmetic operation.
* Every `float64` gauge value sent by this collector is a whole number and is
  represented by that number. The conversion `float64(uptimeSec)` rounds an
  `int` of more than 53 bits to the nearest float64 (`float64`). The counter
  `neighborCount` starts at 0 and grows by 1 per peer; float64 addition is
  exact on whole numbers up to 2^53, so for every map that fits in memory the
  counter is the number of peers counted so far.
* The output channel and the logger are append-only sinks: a call is described
  by what it appends to each of them, in order (`Out`).
* A Go map is the list of its entries in the order in which a `range`
  statement visits them (`GoMap`). Go leaves that order unspecified; the
  decoders below list the entries in the order of the members of the JSON
  object, so another visiting order is the same document with the members of
  its objects permuted.
* The bytes handed to `json.Unmarshal` are represented by the JSON value they
  spell, or by `none` when they are not a JSON text: `encoding/json` checks
  the syntax of the whole input before it decodes anything, so every
  `json.RawMessage` it produces is a valid JSON text.
* The standard-library routines that the collector calls (`fmt.Sscanf` with
  the format `%d:%d:%d`, `json.Unmarshal` into the two map types that occur,
  `strings.ToLower`) are written out for exactly the instances that occur.
-/

namespace Collector

/-! ## `fmt.Sscanf(st, "%d:%d:%d", &h, &m, &s)` -/

/-- Failures of the scanner, one per error site of `fmt`'s `doScanf`,
`advance`, `SkipSpace`, `scanInt` and `scanNumber`. -/
inductive ScanError where
  /-- The value `io.EOF`: input ended where an operand had to start. -/
  | eof
  /-- The value `io.ErrUnexpectedEOF`: input ended where a literal of the format was due. -/
  | unexpectedEOF
  /-- Message "unexpected newline". -/
  | unexpectedNewline
  /-- Message "expected integer". -/
  | expectedInteger
  /-- Message "input does not match format". -/
  | inputDoesNotMatchFormat
  /-- The `strconv.ErrRange` failure of `strconv.ParseInt`. -/
  | valueOutOfRange
  deriving DecidableEq, Repr

/-- Bound `hugeWid = 1 << 30` of package `fmt`: a scan state reads at most this
many runes (`ReadRune` reports EOF once `count >= argLimit`). -/
def hugeWid : Nat := 2 ^ 30

/-- Width `intBits` of a Go `int` (64-bit platforms). -/
def intBits : Nat := 64

/-- Table `space` of package `fmt`, as a predicate on runes. -/
def isSpace (r : Char) : Bool :=
  let c := r.toNat
  (0x0009 ≤ c && c ≤ 0x000d) || c == 0x0020 || c == 0x0085 || c == 0x00a0 ||
  c == 0x1680 || (0x2000 ≤ c && c ≤ 0x200a) || (0x2028 ≤ c && c ≤ 0x2029) ||
  c == 0x202f || c == 0x205f || c == 0x3000

/-- Membership in `decimalDigits = "0123456789"`. -/
def isDecimalDigit (r : Char) : Bool :=
  48 ≤ r.toNat && r.toNat ≤ 57

/-- Membership in `sign = "+-"`. -/
def isSign (r : Char) : Bool :=
  r == '+' || r == '-'

/-- Method `(*ss).SkipSpace` in the mode of `Sscanf` (`nlIsSpace = false`): a
carriage return directly before a newline is dropped, a newline is an error,
any other space is skipped, and the first non-space rune is left unread. -/
def SkipSpace : List Char → Except ScanError (List Char)
  | [] => .ok []
  | r :: rest =>
    if r == '\r' && rest.head? == some '\n' then SkipSpace rest
    else if r == '\n' then .error .unexpectedNewline
    else if isSpace r then SkipSpace rest
    else .ok (r :: rest)

/-- Value of a run of decimal digits, most significant first. -/
def digitsValue (ds : List Char) : Nat :=
  ds.foldl (fun acc d => 10 * acc + (d.toNat - 48)) 0

/-- Function `strconv.ParseInt(tok, 10, 64)` on a token made of an optional
sign and a non-empty run of decimal digits: the value, or a range error. -/
def ParseInt (neg : Bool) (ds : List Char) : Except ScanError Int :=
  let un := digitsValue ds
  let cutoff := 2 ^ 63
  if !neg && un ≥ cutoff then .error .valueOutOfRange
  else if neg && un > cutoff then .error .valueOutOfRange
  else .ok (if neg then -(un : Int) else (un : Int))

/-- Reduction of an integer to the range of a Go `int` (two's complement). -/
def wrapInt (x : Int) : Int :=
  (x + 2 ^ (intBits - 1)) % 2 ^ intBits - 2 ^ (intBits - 1)

/-- Method `(*ss).scanInt('d', intBits)`: skip spaces, refuse end of input, accept one
optional sign, then at least one decimal digit and all that follow, and
convert the token; a value that does not survive truncation to `intBits` bits
is an overflow. Returns the value and the unread input. -/
def scanInt (inp : List Char) : Except ScanError (Int × List Char) :=
  match SkipSpace inp with
  | .error e => .error e
  | .ok [] => .error .eof
  | .ok (r :: rest) =>
    let neg := r == '-'
    let afterSign := if isSign r then rest else r :: rest
    match afterSign with
    | [] => .error .eof
    | d :: more =>
      if isDecimalDigit d then
        let ds := d :: more.takeWhile isDecimalDigit
        match ParseInt neg ds with
        | .error e => .error e
        | .ok i =>
          if wrapInt i ≠ i then
            .error .valueOutOfRange
          else .ok (i, more.dropWhile isDecimalDigit)
      else .error .expectedInteger

/-- The literal `:` of the format, as `advance` matches it: the next rune must
be a colon; end of input and any other rune are different errors. -/
def advanceColon : List Char → Except ScanError (List Char)
  | [] => .error .unexpectedEOF
  | r :: rest => if r == ':' then .ok rest else .error .inputDoesNotMatchFormat

/-- What `fmt.Sscanf(st, "%d:%d:%d", &h, &m, &s)` leaves behind: the number
`n` of operands stored, the error, and the three operands (zero where not
stored). -/
structure ScanResult where
  n : Nat
  err : Option ScanError
  h : Int
  m : Int
  s : Int
  deriving DecidableEq, Repr

/-- One `%d` step of `doScanf`: `SkipSpace`, then `scanOne` into an `*int`. -/
def scanOperand (inp : List Char) : Except ScanError (Int × List Char) :=
  match SkipSpace inp with
  | .error e => .error e
  | .ok inp1 => scanInt inp1

/-- Function `fmt.Sscanf` for the format `%d:%d:%d` and three `*int` operands. -/
def Sscanf (st : String) : ScanResult :=
  match scanOperand (st.data.take hugeWid) with
  | .error e => ⟨0, some e, 0, 0, 0⟩
  | .ok (h, r1) =>
    match advanceColon r1 with
    | .error e => ⟨1, some e, h, 0, 0⟩
    | .ok r2 =>
      match scanOperand r2 with
      | .error e => ⟨1, some e, h, 0, 0⟩
      | .ok (m, r3) =>
        match advanceColon r3 with
        | .error e => ⟨2, some e, h, m, 0⟩
        | .ok r4 =>
          match scanOperand r4 with
          | .error e => ⟨2, some e, h, m, 0⟩
          | .ok (s, _) => ⟨3, none, h, m, s⟩

/-! ## `parseHMS` -/

/-- Go `*` on `int`. -/
def mulInt (a b : Int) : Int := wrapInt (a * b)

/-- Go `+` on `int`. -/
def addInt (a b : Int) : Int := wrapInt (a + b)

/-- Function `parseHMS` of `pim.go`: the pair `(value, err)` it returns. -/
def parseHMS (st : String) : Int × Option ScanError :=
  let r := Sscanf st
  if r.err ≠ none ∨ r.n ≠ 3 then (0, r.err)
  else (addInt (addInt (mulInt r.h 3600) (mulInt r.m 60)) r.s, none)


/-! ## JSON documents and `json.Unmarshal` -/

/-- A JSON value. A `json.RawMessage` produced by `json.Unmarshal` holds the
text of one syntactically valid value, so it is represented by that value. -/
inductive Json where
  | null
  | bool (b : Bool)
  | number (literal : String)
  | string (s : String)
  | array (elems : List Json)
  | object (members : List (String × Json))

/-- Failures of `json.Unmarshal`. -/
inductive JsonError where
  /-- The bytes are not a JSON text (`*json.SyntaxError`). -/
  | syntaxError
  /-- A value does not fit the Go type it is decoded into (`*json.UnmarshalTypeError`). -/
  | unmarshalTypeError
  deriving DecidableEq, Repr

/-- A Go map with string keys: its entries, keys pairwise distinct, in the
order in which a `range` statement visits them. -/
abbrev GoMap (α : Type) := List (String × α)

/-- Map assignment `m[k] = v`. -/
def GoMap.set {α : Type} : GoMap α → String → α → GoMap α
  | [], k, v => [(k, v)]
  | (k', v') :: rest, k, v =>
    if k' = k then (k, v) :: rest else (k', v') :: GoMap.set rest k v

/-- Map index `m[k]`, `none` standing for the nil pointer of an absent key. -/
def GoMap.get? {α : Type} : GoMap α → String → Option α
  | [], _ => none
  | (k', v') :: rest, k => if k' = k then some v' else GoMap.get? rest k

/-- Call `json.Unmarshal(raw, &m)` with `m` a `map[string]json.RawMessage`,
on a syntactically valid `raw`: `null` leaves the map nil, an object stores
each member under its key (a repeated key keeps the last value), every other
value is a type error. -/
def unmarshalRawMap : Json → Except JsonError (GoMap Json)
  | .null => .ok []
  | .object members => .ok (members.foldl (fun m kv => m.set kv.1 kv.2) [])
  | _ => .error .unmarshalTypeError

/-- Record `pimNeighbor` of `pim.go`. -/
structure pimNeighbor where
  Interface : String
  Neighbor : String
  UpTime : String
  deriving DecidableEq, Repr

/-- The fields of `pimNeighbor`. -/
inductive pimNeighborField where
  | Interface | Neighbor | UpTime
  deriving DecidableEq, Repr

/-- Field selected by an object key: `encoding/json` takes the field whose
name equals the key, else the one equal to it up to ASCII letter case. -/
def fieldForKey (key : String) : Option pimNeighborField :=
  let folded := key.data.map Char.toUpper
  if folded = "INTERFACE".data then some .Interface
  else if folded = "NEIGHBOR".data then some .Neighbor
  else if folded = "UPTIME".data then some .UpTime
  else none

/-- Store a string into one field. -/
def pimNeighbor.setField (nb : pimNeighbor) : pimNeighborField → String → pimNeighbor
  | .Interface, v => { nb with Interface := v }
  | .Neighbor, v => { nb with Neighbor := v }
  | .UpTime, v => { nb with UpTime := v }

/-- Decoding of one object member into the record under construction: an
unknown key is skipped, a string is stored, `null` changes nothing, any other
value for a known field is a type error. -/
def decodeMember (nb : pimNeighbor) (kv : String × Json) : Except JsonError pimNeighbor :=
  match fieldForKey kv.1 with
  | none => .ok nb
  | some f =>
    match kv.2 with
    | .string v => .ok (nb.setField f v)
    | .null => .ok nb
    | _ => .error .unmarshalTypeError

/-- Decoding of members from left to right. -/
def decodeMembers (nb : pimNeighbor) : List (String × Json) → Except JsonError pimNeighbor
  | [] => .ok nb
  | kv :: rest =>
    match decodeMember nb kv with
    | .error e => .error e
    | .ok nb1 => decodeMembers nb1 rest

/-- Decoding of one JSON value into a fresh `pimNeighbor`: `null` gives the
zero record, an object is decoded member by member, every other value is a
type error. -/
def decodeNeighbor : Json → Except JsonError pimNeighbor
  | .null => .ok ⟨"", "", ""⟩
  | .object members => decodeMembers ⟨"", "", ""⟩ members
  | _ => .error .unmarshalTypeError

/-- Decoding of the members of the outer object into the map. -/
def decodeNeighborEntries (m : GoMap pimNeighbor) :
    List (String × Json) → Except JsonError (GoMap pimNeighbor)
  | [] => .ok m
  | kv :: rest =>
    match decodeNeighbor kv.2 with
    | .error e => .error e
    | .ok nb => decodeNeighborEntries (m.set kv.1 nb) rest

/-- Call `json.Unmarshal(raw, &neighbors)` with `neighbors` a
`map[string]pimNeighbor`, on a syntactically valid `raw`. A type error
anywhere inside makes the call return an error. -/
def unmarshalNeighbors : Json → Except JsonError (GoMap pimNeighbor)
  | .null => .ok []
  | .object members => decodeNeighborEntries [] members
  | _ => .error .unmarshalTypeError

/-- Call `json.Unmarshal(jsonPIMNeighbors, &jsonMap)` on the bytes received:
`none` stands for bytes that are not a JSON text, `some j` for bytes that
spell the value `j`. -/
def unmarshalBytes : Option Json → Except JsonError (GoMap Json)
  | none => .error .syntaxError
  | some j => unmarshalRawMap j

/-! ## `strings.ToLower` -/

/-- Function `unicode.ToLower`: ASCII capitals are shifted to small letters, other
ASCII runes are unchanged, and a rune outside ASCII is mapped by the Unicode
case tables, which are the parameter `unicodeLower`. -/
def runeToLower (unicodeLower : Char → Char) (r : Char) : Char :=
  if r.toNat ≤ 127 then
    (if 65 ≤ r.toNat ∧ r.toNat ≤ 90 then Char.ofNat (r.toNat + 32) else r)
  else unicodeLower r

/-- Function `strings.ToLower`. -/
def ToLower (unicodeLower : Char → Char) (s : String) : String :=
  String.mk (s.data.map (runeToLower unicodeLower))

/-! ## Conversion to `float64` -/

/-- Conversion `float64(x)` of a Go `int`, as the whole number that the
resulting float64 holds. A float64 has 53 significant bits: a magnitude below
2^53 is exact; a magnitude of `53 + k` bits (`k` from 1 to 11, which covers
every `int`) is rounded to the nearest multiple of `2^k`, and a tie goes to
the multiple whose quotient by `2^k` is even. -/
def float64 (x : Int) : Int :=
  let a := x.natAbs
  let k := ((List.range 11).filter (fun j => decide (2 ^ (53 + j) ≤ a))).length
  let ulp := 2 ^ k
  let q := a / ulp
  let r := a % ulp
  let q1 :=
    if 2 * r < ulp then q
    else if ulp < 2 * r then q + 1
    else if q % 2 = 0 then q else q + 1
  if x < 0 then -((q1 * ulp : Nat) : Int) else ((q1 * ulp : Nat) : Int)

/-! ## Descriptors and the output sinks -/

/-- A metric descriptor (`*prometheus.Desc`). -/
structure Desc where
  subsystem : String
  name : String
  help : String
  labels : List String
  deriving DecidableEq, Repr

/-- Modelled from the spec: `colPromDesc` is declared outside `pim.go`; the
spec describes a descriptor as subsystem, name, help text and ordered label
names, created once and never mutated. -/
def colPromDesc (subsystem metricName metricDescription : String) (labels : List String) :
    Desc :=
  ⟨subsystem, metricName, metricDescription, labels⟩

/-- Variable `pimSubsystem` of `pim.go`. -/
def pimSubsystem : String := "pim"

/-- Variable `pimNeighborMetrixPrefix` of `pim.go`. -/
def pimNeighborMetrixPrefix : String := "pim_neighbor"

/-- Variable `pimLabels` of `pim.go`. -/
def pimLabels : List String := ["vrf"]

/-- Variable `pimNeighborLabels` of `pim.go`: `append(pimLabels, "neighbor", "iface")`. -/
def pimNeighborLabels : List String := pimLabels ++ ["neighbor", "iface"]

/-- Variable `pimDesc` of `pim.go`: the descriptors by name. -/
def pimDesc : GoMap Desc :=
  [("neighborCount",
      colPromDesc pimSubsystem "neighbors_count_total" "Number of neighbors detected" pimLabels),
   ("upTime",
      colPromDesc pimNeighborMetrixPrefix "uptime_seconds" "How long has the peer ben up."
        pimNeighborLabels)]

/-- One observation sent to the channel: descriptor, value, label values. The
value is a float64; every value sent here is a whole number (a converted
`int` or a count) and `value` is that number. -/
structure Metric where
  desc : Option Desc
  value : Int
  labels : List String
  deriving DecidableEq, Repr

/-- One record written through `level.Error(logger).Log`. -/
structure LogRecord where
  msg : String
  uptime : String
  err : ScanError
  deriving DecidableEq, Repr

/-- What a call has sent to the channel and written to the logger so far. -/
structure Out where
  ch : List Metric
  log : List LogRecord
  deriving DecidableEq, Repr

/-- Modelled from the spec: `newGauge` is declared outside `pim.go`; it writes
one observation (descriptor, value, label values) to the output channel. -/
def newGauge (o : Out) (desc : Option Desc) (value : Int) (labels : List String) : Out :=
  { o with ch := o.ch ++ [⟨desc, value, labels⟩] }

/-- Call `level.Error(logger).Log(...)`: one record appended to the log. -/
def logError (o : Out) (msg uptime : String) (err : ScanError) : Out :=
  { o with log := o.log ++ [⟨msg, uptime, err⟩] }

/-! ## `processPIMNeighbors` and `Update` -/

/-- Errors returned by the collector, one per `fmt.Errorf` site. -/
inductive PimError where
  /-- Message "cannot get pim neighbors: ..." -/
  | cannotGetNeighbors (cause : String)
  /-- Message "cannot unmarshal pim neighbors json: ..." -/
  | cannotUnmarshalNeighborsJson (cause : JsonError)
  /-- Message "cannot unmarshal VRF instance json: ..." -/
  | cannotUnmarshalVrfInstance (cause : JsonError)
  /-- Message "cannot unmarshal neighbor json: ..." -/
  | cannotUnmarshalNeighbor (cause : JsonError)
  deriving DecidableEq, Repr

/-- The innermost loop, `for neighborIp, neighborData := range neighbors`:
threads the sinks and the counter `neighborCount` (a float64 that holds a
whole number, see the conventions above). -/
def neighborLoop (unicodeLower : Char → Char) (vrfName ifaceName : String) :
    GoMap pimNeighbor → Out → Int → Out × Int
  | [], o, neighborCount => (o, neighborCount)
  | (neighborIp, neighborData) :: rest, o, neighborCount =>
    let neighborCount := neighborCount + 1
    match parseHMS neighborData.UpTime with
    | (_, some err) =>
      neighborLoop unicodeLower vrfName ifaceName rest
        (logError o "cannot parse neighbor uptime" neighborData.UpTime err) neighborCount
    | (uptimeSec, none) =>
      let neighborLabels :=
        [ToLower unicodeLower vrfName, ToLower unicodeLower ifaceName, neighborIp]
      neighborLoop unicodeLower vrfName ifaceName rest
        (newGauge o (pimDesc.get? "upTime") (float64 uptimeSec) neighborLabels) neighborCount

/-- The middle loop, `for ifaceName, ifaceData := range _tempvrfInstance`: a
decode failure returns at once with the sinks as they are. -/
def ifaceLoop (unicodeLower : Char → Char) (vrfName : String) :
    GoMap Json → Out → Int → Out × Except PimError Int
  | [], o, neighborCount => (o, .ok neighborCount)
  | (ifaceName, ifaceData) :: rest, o, neighborCount =>
    match unmarshalNeighbors ifaceData with
    | .error err => (o, .error (.cannotUnmarshalNeighbor err))
    | .ok neighbors =>
      let step := neighborLoop unicodeLower vrfName ifaceName neighbors o neighborCount
      ifaceLoop unicodeLower vrfName rest step.1 step.2

/-- The outer loop, `for vrfName, vrfData := range jsonMap`. -/
def vrfLoop (unicodeLower : Char → Char) : GoMap Json → Out → Out × Option PimError
  | [], o => (o, none)
  | (vrfName, vrfData) :: rest, o =>
    match unmarshalRawMap vrfData with
    | .error err => (o, some (.cannotUnmarshalVrfInstance err))
    | .ok _tempvrfInstance =>
      match ifaceLoop unicodeLower vrfName _tempvrfInstance o 0 with
      | (o1, .error err) => (o1, some err)
      | (o1, .ok neighborCount) =>
        vrfLoop unicodeLower rest (newGauge o1 (pimDesc.get? "neighborCount") neighborCount [vrfName])

/-- Function `processPIMNeighbors` of `pim.go`, started with empty sinks: what it sends
and logs, and the error it returns (`none` for `nil`). -/
def processPIMNeighbors (unicodeLower : Char → Char) (jsonPIMNeighbors : Option Json) :
    Out × Option PimError :=
  match unmarshalBytes jsonPIMNeighbors with
  | .error err => (⟨[], []⟩, some (.cannotUnmarshalNeighborsJson err))
  | .ok jsonMap => vrfLoop unicodeLower jsonMap ⟨[], []⟩

/-- Method `pimCollector.Update` of `pim.go`. The outcome of `getPIMNeighbors` (the
external command) is the argument `acquired`. -/
def Update (unicodeLower : Char → Char) (acquired : Except String (Option Json)) :
    Out × Option PimError :=
  match acquired with
  | .error err => (⟨[], []⟩, some (.cannotGetNeighbors err))
  | .ok jsonPIMNeighbors =>
    match processPIMNeighbors unicodeLower jsonPIMNeighbors with
    | (o, some err) => (o, some err)
    | (o, none) => (o, none)

/-! ## Vocabulary of the statements about `parseHMS` -/

/-- A run of runes that `SkipSpace` passes over: spaces other than newline. -/
def isBlankRun (w : List Char) : Bool :=
  w.all (fun c => isSpace c && c != '\n')

/-- The integer written by a decimal token: an optional sign followed by at
least one decimal digit (leading zeros allowed); `none` for other text. -/
def decimalToken (tok : List Char) : Option Int :=
  match tok with
  | [] => none
  | c :: rest =>
    if isSign c then
      (match rest with
       | [] => none
       | d :: more =>
         if (d :: more).all isDecimalDigit then
           some (if c == '-' then -(digitsValue (d :: more) : Int) else (digitsValue (d :: more) : Int))
         else none)
    else if (c :: rest).all isDecimalDigit then some (digitsValue (c :: rest) : Int)
    else none

/-- The values of a Go `int`. -/
def inIntRange (x : Int) : Prop := -2 ^ 63 ≤ x ∧ x < 2 ^ 63

instance (x : Int) : Decidable (inIntRange x) := by
  unfold inIntRange; infer_instance

/-- The pieces of a text between its colons. -/
def splitColon : List Char → List (List Char)
  | [] => [[]]
  | c :: rest =>
    match splitColon rest with
    | [] => [[]]
    | p :: ps => if c == ':' then [] :: p :: ps else (c :: p) :: ps

/-- The shape the spec words as `integer:integer:integer`: the whole text is
three decimal tokens separated by two colons. -/
def isExactHMS (st : String) : Bool :=
  match splitColon st.data with
  | [a, b, c] => (decimalToken a).isSome && (decimalToken b).isSome && (decimalToken c).isSome
  | _ => false

/-- The value of a token with the sign applied. -/
def signedValue (neg : Bool) (ds : List Char) : Int :=
  if neg then -(digitsValue ds : Int) else (digitsValue ds : Int)

/-! ## Vocabulary of the statements about the collector -/

/-- A decoded scope tree: domain, then interface, then peer, each mapping in
the order in which it is visited. -/
abbrev ScopeTree := GoMap (GoMap (GoMap pimNeighbor))

/-- Every interface of one VRF instance decoded, ahead of any emission. -/
def decodeIfaces : GoMap Json → Except JsonError (GoMap (GoMap pimNeighbor))
  | [] => .ok []
  | (ifaceName, ifaceData) :: rest =>
    match unmarshalNeighbors ifaceData with
    | .error e => .error e
    | .ok neighbors =>
      match decodeIfaces rest with
      | .error e => .error e
      | .ok t => .ok ((ifaceName, neighbors) :: t)

/-- Every VRF of the outer mapping decoded down to the peers. -/
def decodeVrfs : GoMap Json → Except JsonError ScopeTree
  | [] => .ok []
  | (vrfName, vrfData) :: rest =>
    match unmarshalRawMap vrfData with
    | .error e => .error e
    | .ok inst =>
      match decodeIfaces inst with
      | .error e => .error e
      | .ok ifs =>
        match decodeVrfs rest with
        | .error e => .error e
        | .ok t => .ok ((vrfName, ifs) :: t)

/-- The input decoded at all three levels: the scope tree it spells, or the
first failure. -/
def decodeTree (doc : Option Json) : Except JsonError ScopeTree :=
  match unmarshalBytes doc with
  | .error e => .error e
  | .ok jsonMap => decodeVrfs jsonMap

/-- The uptime observation of one peer: one observation when `parseHMS`
accepts its `UpTime`, with the parsed seconds converted to float64, none when
it rejects it. -/
def peerObservations (unicodeLower : Char → Char) (vrfName ifaceName : String)
    (peer : String × pimNeighbor) : List Metric :=
  if (parseHMS peer.2.UpTime).2 = none then
    [⟨pimDesc.get? "upTime", float64 (parseHMS peer.2.UpTime).1,
      [ToLower unicodeLower vrfName, ToLower unicodeLower ifaceName, peer.1]⟩]
  else []

/-- The uptime observations of the interfaces of one domain, in visiting order. -/
def uptimeObservations (unicodeLower : Char → Char) (vrfName : String)
    (ifs : GoMap (GoMap pimNeighbor)) : List Metric :=
  ifs.flatMap (fun i => i.2.flatMap (peerObservations unicodeLower vrfName i.1))

/-- Number `N` of peers of a domain, over all its interfaces. -/
def peerCount (ifs : GoMap (GoMap pimNeighbor)) : Nat :=
  (ifs.map (fun i => i.2.length)).sum

/-- Number `K` of peers of a domain whose `UpTime` is rejected by `parseHMS`. -/
def rejectedCount (ifs : GoMap (GoMap pimNeighbor)) : Nat :=
  (ifs.map (fun i => (i.2.filter (fun p => decide ((parseHMS p.2.UpTime).2 ≠ none))).length)).sum

/-- The count observation of a domain. -/
def countObservation (d : String × GoMap (GoMap pimNeighbor)) : Metric :=
  ⟨pimDesc.get? "neighborCount", (peerCount d.2 : Int), [d.1]⟩

/-- Everything one domain contributes: its uptime observations, then its count. -/
def domainObservations (unicodeLower : Char → Char) (d : String × GoMap (GoMap pimNeighbor)) :
    List Metric :=
  uptimeObservations unicodeLower d.1 d.2 ++ [countObservation d]

/-- Everything a scope tree contributes, domain after domain. -/
def treeObservations (unicodeLower : Char → Char) (t : ScopeTree) : List Metric :=
  t.flatMap (domainObservations unicodeLower)

/-- The same mapping visited in another order, with values related by `R`. -/
def Reordered {α : Type} (R : α → α → Prop) (m1 m2 : GoMap α) : Prop :=
  ∃ mid, List.Forall₂ (fun a b => a.1 = b.1 ∧ R a.2 b.2) m1 mid ∧ mid.Perm m2

/-- The same scope tree traversed in another order at each of the three levels. -/
def TreeReordered (t1 t2 : ScopeTree) : Prop :=
  Reordered (Reordered (Reordered Eq)) t1 t2

/-- The label vectors of the uptime observations among `ms`. -/
def uptimeLabelVectors (ms : List Metric) : List (List String) :=
  (ms.filter (fun m => decide (m.desc = pimDesc.get? "upTime"))).map (fun m => m.labels)

/-- Stand-in for the Unicode case tables in the concrete examples: their
strings are ASCII, for which `strings.ToLower` never consults the tables. -/
def asciiOnly : Char → Char := fun r => r

/-- The end-to-end scenario of the spec: domain "default", interface "eth0",
peer "10.0.0.1" up for "0:05:00" and peer "10.0.0.2" with uptime "bad". -/
def sampleDoc : Json :=
  .object [("default", .object [("eth0", .object [
    ("10.0.0.1", .object [("upTime", .string "0:05:00")]),
    ("10.0.0.2", .object [("upTime", .string "bad")])])])]

/-- The scope tree that `sampleDoc` spells. -/
def sampleTree : ScopeTree :=
  [("default", [("eth0", [("10.0.0.1", ⟨"", "", "0:05:00"⟩), ("10.0.0.2", ⟨"", "", "bad"⟩)])])]

/-- A document whose second VRF is not an object: VRF "a" holds one peer
that is up, VRF "b" is the number 1. -/
def tornVrfDoc : Json :=
  .object [("a", .object [("eth0", .object [
      ("10.0.0.1", .object [("upTime", .string "0:05:00")])])]),
    ("b", .number "1")]

/-- A document whose second interface is not an object: interface "eth0" of
VRF "a" holds one peer that is up, interface "eth1" is the number 1. -/
def tornIfaceDoc : Json :=
  .object [("a", .object [
    ("eth0", .object [("10.0.0.1", .object [("upTime", .string "0:05:00")])]),
    ("eth1", .number "1")])]

/-- A decodable document: two VRFs, two interfaces, two peers. -/
def orderDocA : Json :=
  .object [
    ("a", .object [
      ("e0", .object [("10.0.0.1", .object [("upTime", .string "0:00:01")]),
                      ("10.0.0.2", .object [("upTime", .string "x")])]),
      ("e1", .object [])]),
    ("b", .null)]

/-- The document `orderDocA` with the members of every object in reverse order. -/
def orderDocB : Json :=
  .object [
    ("b", .null),
    ("a", .object [
      ("e1", .object []),
      ("e0", .object [("10.0.0.2", .object [("upTime", .string "x")]),
                      ("10.0.0.1", .object [("upTime", .string "0:00:01")])])])]

/-- The scope tree of `orderDocA`. -/
def orderTreeA : ScopeTree :=
  [("a", [("e0", [("10.0.0.1", ⟨"", "", "0:00:01"⟩), ("10.0.0.2", ⟨"", "", "x"⟩)]),
          ("e1", [])]),
   ("b", [])]

/-- The scope tree of `orderDocB`. -/
def orderTreeB : ScopeTree :=
  [("b", []),
   ("a", [("e1", []),
          ("e0", [("10.0.0.2", ⟨"", "", "x"⟩), ("10.0.0.1", ⟨"", "", "0:00:01"⟩)])])]

/-- A decodable document with the two VRFs "A" and "a", each with interface
"eth0" and peer "10.0.0.1". -/
def collisionDoc : Json :=
  .object [
    ("A", .object [("eth0", .object [("10.0.0.1", .object [("upTime", .string "0:00:01")])])]),
    ("a", .object [("eth0", .object [("10.0.0.1", .object [("upTime", .string "0:00:02")])])])]

/-- The scope tree of `collisionDoc`. -/
def collisionTree : ScopeTree :=
  [("A", [("eth0", [("10.0.0.1", ⟨"", "", "0:00:01"⟩)])]),
   ("a", [("eth0", [("10.0.0.1", ⟨"", "", "0:00:02"⟩)])])]

/-- A decodable document with capital letters in its keys: the VRFs "Red" and
"blue", the interfaces "Eth0" and "eth1" of "Red" and "Eth0" of "blue", and
peers that are all up, the last for 2^53 + 3 seconds. -/
def mixedCaseDoc : Json :=
  .object [
    ("Red", .object [
      ("Eth0", .object [("FE80::A", .object [("upTime", .string "0:00:01")]),
                        ("10.0.0.2", .object [("upTime", .string "0:00:02")])]),
      ("eth1", .object [("FE80::A", .object [("upTime", .string "0:00:03")])])]),
    ("blue", .object [
      ("Eth0", .object [("FE80::A", .object [("upTime", .string "0:0:9007199254740995")])])])]

/-- The scope tree of `mixedCaseDoc`. -/
def mixedCaseTree : ScopeTree :=
  [("Red", [("Eth0", [("FE80::A", ⟨"", "", "0:00:01"⟩), ("10.0.0.2", ⟨"", "", "0:00:02"⟩)]),
            ("eth1", [("FE80::A", ⟨"", "", "0:00:03"⟩)])]),
   ("blue", [("Eth0", [("FE80::A", ⟨"", "", "0:0:9007199254740995"⟩)])])]

/-- A decodable document with one peer whose uptime, 2^53 + 1 seconds, is not
a float64. -/
def roundingDoc : Json :=
  .object [("default", .object [("eth0", .object [
    ("10.0.0.1", .object [("upTime", .string "0:0:9007199254740993")])])])]

/-! ## The scanner, characterised -/

theorem isSpace_cr : isSpace '\r' = true := by decide

theorem SkipSpace_cons (r : Char) (rest : List Char) :
    SkipSpace (r :: rest) =
      if r = '\n' then .error .unexpectedNewline
      else if isSpace r = true then SkipSpace rest else .ok (r :: rest) := by
  rw [SkipSpace]
  by_cases h1 : r = '\r'
  · subst h1
    by_cases h2 : rest.head? = some '\n'
    · simp [h2, isSpace_cr]
    · have h3 : ('\r' : Char) ≠ '\n' := by decide
      simp [h2, isSpace_cr, h3]
  · simp [h1]

theorem SkipSpace_blank_append (w inp : List Char) (hw : isBlankRun w = true) :
    SkipSpace (w ++ inp) = SkipSpace inp := by
  induction w with
  | nil => rfl
  | cons c w ih =>
    simp only [isBlankRun, List.all_cons, Bool.and_eq_true, bne_iff_ne, ne_eq] at hw
    rw [List.cons_append, SkipSpace_cons]
    simp only [hw.1.2, if_false, hw.1.1, if_true]
    exact ih (by simpa [isBlankRun] using hw.2)

theorem SkipSpace_nonspace (c : Char) (rest : List Char) (hc : isSpace c = false) :
    SkipSpace (c :: rest) = .ok (c :: rest) := by
  rw [SkipSpace_cons]
  have hn : c ≠ '\n' := by
    intro h; subst h; revert hc; decide
  simp [hn, hc]

theorem SkipSpace_ok (inp out : List Char) (h : SkipSpace inp = .ok out) :
    ∃ w, inp = w ++ out ∧ isBlankRun w = true ∧
      ∀ c, out.head? = some c → isSpace c = false := by
  induction inp with
  | nil =>
    simp only [SkipSpace, Except.ok.injEq] at h
    subst h
    exact ⟨[], rfl, rfl, by simp⟩
  | cons r rest ih =>
    rw [SkipSpace_cons] at h
    by_cases h1 : r = '\n'
    · simp [h1] at h
    · by_cases h2 : isSpace r = true
      · simp only [h1, if_false, h2, if_true] at h
        obtain ⟨w, hw1, hw2, hw3⟩ := ih h
        refine ⟨r :: w, by simp [hw1], ?_, hw3⟩
        simp only [isBlankRun, List.all_cons, Bool.and_eq_true, bne_iff_ne, ne_eq]
        exact ⟨⟨h2, h1⟩, by simpa [isBlankRun] using hw2⟩
      · simp only [h1, if_false, h2] at h
        simp only [Bool.false_eq_true, if_false, Except.ok.injEq] at h
        subst h
        exact ⟨[], rfl, rfl, by simpa using h2⟩

theorem SkipSpace_idem (inp out : List Char) (h : SkipSpace inp = .ok out) :
    SkipSpace out = .ok out := by
  obtain ⟨w, _, _, h3⟩ := SkipSpace_ok inp out h
  cases out with
  | nil => rfl
  | cons c rest => exact SkipSpace_nonspace c rest (h3 c rfl)

theorem scanOperand_eq_scanInt (inp : List Char) : scanOperand inp = scanInt inp := by
  unfold scanOperand
  cases h : SkipSpace inp with
  | error e => simp [scanInt, h]
  | ok out =>
    simp only
    unfold scanInt
    rw [h, SkipSpace_idem inp out h]

theorem isSpace_of_digit (c : Char) (h : isDecimalDigit c = true) : isSpace c = false := by
  simp only [isDecimalDigit, Bool.and_eq_true, decide_eq_true_eq] at h
  simp only [isSpace, Bool.or_eq_false_iff, Bool.and_eq_false_iff, decide_eq_false_iff_not,
    beq_eq_false_iff_ne, ne_eq]
  omega

theorem isSign_iff (c : Char) : isSign c = true ↔ c = '+' ∨ c = '-' := by
  simp [isSign]

theorem isSpace_of_sign (c : Char) (h : isSign c = true) : isSpace c = false := by
  rcases (isSign_iff c).1 h with h | h <;> subst h <;> decide

theorem isDigit_of_sign (c : Char) (h : isSign c = true) : isDecimalDigit c = false := by
  rcases (isSign_iff c).1 h with h | h <;> subst h <;> decide

theorem isSign_of_digit (c : Char) (h : isDecimalDigit c = true) : isSign c = false := by
  cases hs : isSign c with
  | false => rfl
  | true => rw [isDigit_of_sign c hs] at h; cases h

theorem takeWhile_run (p : Char → Bool) (ds rest : List Char) (hds : ds.all p = true)
    (hrest : ∀ c, rest.head? = some c → p c = false) :
    (ds ++ rest).takeWhile p = ds ∧ (ds ++ rest).dropWhile p = rest := by
  induction ds with
  | nil =>
    cases rest with
    | nil => simp
    | cons c r => simp [List.takeWhile, List.dropWhile, hrest c rfl]
  | cons d ds ih =>
    simp only [List.all_cons, Bool.and_eq_true] at hds
    have := ih hds.2
    simp [List.takeWhile, List.dropWhile, hds.1, this.1, this.2]

theorem dropWhile_head (p : Char → Bool) (l : List Char) :
    ∀ c, (l.dropWhile p).head? = some c → p c = false := by
  induction l with
  | nil => simp
  | cons a l ih =>
    intro c hc
    by_cases ha : p a = true
    · rw [List.dropWhile_cons_of_pos ha] at hc
      exact ih c hc
    · rw [List.dropWhile_cons_of_neg ha] at hc
      simp only [List.head?_cons, Option.some.injEq] at hc
      subst hc
      simpa using ha

theorem takeWhile_all (p : Char → Bool) (l : List Char) : (l.takeWhile p).all p = true := by
  induction l with
  | nil => rfl
  | cons a l ih =>
    by_cases ha : p a = true
    · rw [List.takeWhile_cons_of_pos ha]; simp [ha, ih]
    · rw [List.takeWhile_cons_of_neg ha]; rfl

theorem ParseInt_ok_iff (neg : Bool) (ds : List Char) (v : Int) :
    ParseInt neg ds = .ok v ↔ v = signedValue neg ds ∧ inIntRange v := by
  unfold ParseInt signedValue inIntRange
  cases neg <;> simp only [Bool.not_false, Bool.not_true, Bool.true_and, Bool.false_and,
    decide_eq_true_eq, if_false, Bool.false_eq_true, if_true]
  · split
    · constructor
      · intro h; cases h
      · rintro ⟨rfl, _, h2⟩; omega
    · constructor
      · intro h; cases h; omega
      · rintro ⟨rfl, _⟩; rfl
  · split
    · constructor
      · intro h; cases h
      · rintro ⟨rfl, h1, _⟩; omega
    · constructor
      · intro h; cases h; omega
      · rintro ⟨rfl, _⟩; rfl

theorem wrapInt_of_inIntRange (x : Int) (h : inIntRange x) : wrapInt x = x := by
  unfold inIntRange at h
  unfold wrapInt intBits
  norm_num
  omega

theorem inIntRange_wrapInt (x : Int) : inIntRange (wrapInt x) := by
  unfold inIntRange wrapInt intBits
  norm_num
  omega

/-- What `scanInt` does once the blanks are gone and the token is `sgn? ds`. -/
theorem scanInt_digits (neg : Bool) (d : Char) (more rest : List Char)
    (hmore : more.all isDecimalDigit = true)
    (hrest : ∀ c, rest.head? = some c → isDecimalDigit c = false) :
    (match ParseInt neg (d :: (more ++ rest).takeWhile isDecimalDigit) with
      | .error e => (.error e : Except ScanError (Int × List Char))
      | .ok i =>
        if wrapInt i ≠ i then .error .valueOutOfRange
        else .ok (i, (more ++ rest).dropWhile isDecimalDigit)) =
    (if inIntRange (signedValue neg (d :: more)) then .ok (signedValue neg (d :: more), rest)
     else .error .valueOutOfRange) := by
  obtain ⟨h1, h2⟩ := takeWhile_run isDecimalDigit more rest hmore hrest
  rw [h1, h2]
  cases hp : ParseInt neg (d :: more) with
  | ok i =>
    obtain ⟨hv, hr⟩ := (ParseInt_ok_iff _ _ _).1 hp
    subst hv
    simp [hr, wrapInt_of_inIntRange _ hr]
  | error e =>
    have hnr : ¬ inIntRange (signedValue neg (d :: more)) := by
      intro hr
      have := (ParseInt_ok_iff neg (d :: more) _).2 ⟨rfl, hr⟩
      rw [hp] at this; cases this
    have he : e = .valueOutOfRange := by
      simp only [ParseInt] at hp
      split_ifs at hp <;> (cases hp; rfl)
    simp [hnr, he]

theorem scanInt_unsigned (d : Char) (more rest : List Char)
    (hd : isDecimalDigit d = true) (hmore : more.all isDecimalDigit = true)
    (hrest : ∀ c, rest.head? = some c → isDecimalDigit c = false) :
    scanInt (d :: (more ++ rest)) =
      (if inIntRange (signedValue false (d :: more)) then
        .ok (signedValue false (d :: more), rest)
       else .error .valueOutOfRange) := by
  have hs := isSign_of_digit d hd
  have hm : (d == '-') = false := by
    simp only [isSign, Bool.or_eq_false_iff] at hs
    exact hs.2
  unfold scanInt
  rw [SkipSpace_nonspace d _ (isSpace_of_digit d hd)]
  simp only [hs, hm, hd, if_true, Bool.false_eq_true, if_false]
  exact scanInt_digits false d more rest hmore hrest

theorem scanInt_signed (c d : Char) (more rest : List Char) (hc : isSign c = true)
    (hd : isDecimalDigit d = true) (hmore : more.all isDecimalDigit = true)
    (hrest : ∀ c, rest.head? = some c → isDecimalDigit c = false) :
    scanInt (c :: d :: (more ++ rest)) =
      (if inIntRange (signedValue (c == '-') (d :: more)) then
        .ok (signedValue (c == '-') (d :: more), rest)
       else .error .valueOutOfRange) := by
  unfold scanInt
  rw [SkipSpace_nonspace c _ (isSpace_of_sign c hc)]
  simp only [hc, hd, if_true]
  exact scanInt_digits (c == '-') d more rest hmore hrest

theorem scanInt_blank_append (w inp : List Char) (hw : isBlankRun w = true) :
    scanInt (w ++ inp) = scanInt inp := by
  unfold scanInt
  rw [SkipSpace_blank_append w inp hw]

/-- Shape of a decimal token. -/
theorem decimalToken_some (tok : List Char) (v : Int) (h : decimalToken tok = some v) :
    (∃ d more, tok = d :: more ∧ isDecimalDigit d = true ∧ more.all isDecimalDigit = true ∧
        v = signedValue false (d :: more)) ∨
    (∃ c d more, tok = c :: d :: more ∧ isSign c = true ∧ isDecimalDigit d = true ∧
        more.all isDecimalDigit = true ∧ v = signedValue (c == '-') (d :: more)) := by
  cases tok with
  | nil => simp [decimalToken] at h
  | cons c rest =>
    unfold decimalToken at h
    by_cases hc : isSign c = true
    · simp only [hc, if_true] at h
      cases rest with
      | nil => simp at h
      | cons d more =>
        simp only at h
        by_cases hall : (d :: more).all isDecimalDigit = true
        · rw [if_pos hall] at h
          simp only [List.all_cons, Bool.and_eq_true] at hall
          simp only [Option.some.injEq] at h
          refine Or.inr ⟨c, d, more, rfl, hc, hall.1, hall.2, ?_⟩
          rw [← h]; unfold signedValue
          cases hm : (c == '-') <;> simp
        · rw [if_neg hall] at h; cases h
    · simp only [hc, Bool.false_eq_true, if_false] at h
      split_ifs at h with hall
      simp only [List.all_cons, Bool.and_eq_true] at hall
      simp only [Option.some.injEq] at h
      exact Or.inl ⟨c, rest, rfl, hall.1, hall.2, by rw [← h]; simp [signedValue]⟩

theorem decimalToken_unsigned (d : Char) (more : List Char) (hd : isDecimalDigit d = true)
    (hmore : more.all isDecimalDigit = true) :
    decimalToken (d :: more) = some (signedValue false (d :: more)) := by
  unfold decimalToken
  simp [isSign_of_digit d hd, hd, hmore, signedValue]

theorem decimalToken_signed (c d : Char) (more : List Char) (hc : isSign c = true)
    (hd : isDecimalDigit d = true) (hmore : more.all isDecimalDigit = true) :
    decimalToken (c :: d :: more) = some (signedValue (c == '-') (d :: more)) := by
  unfold decimalToken
  simp only [hc, if_true, List.all_cons, hd, hmore, Bool.and_self, signedValue]

/-- The scanner accepts a decimal token in range, after any blanks. -/
theorem scanInt_of_token (w tok rest : List Char) (v : Int) (hw : isBlankRun w = true)
    (ht : decimalToken tok = some v) (hv : inIntRange v)
    (hrest : ∀ c, rest.head? = some c → isDecimalDigit c = false) :
    scanInt (w ++ (tok ++ rest)) = .ok (v, rest) := by
  rw [scanInt_blank_append w _ hw]
  rcases decimalToken_some tok v ht with ⟨d, more, rfl, hd, hmore, rfl⟩ |
    ⟨c, d, more, rfl, hc, hd, hmore, rfl⟩
  · rw [List.cons_append, scanInt_unsigned d more rest hd hmore hrest, if_pos hv]
  · rw [List.cons_append, List.cons_append, scanInt_signed c d more rest hc hd hmore hrest,
      if_pos hv]

/-- Whatever the scanner accepts is a decimal token in range, after blanks. -/
theorem scanInt_ok (inp rest : List Char) (v : Int) (h : scanInt inp = .ok (v, rest)) :
    ∃ w tok, inp = w ++ (tok ++ rest) ∧ isBlankRun w = true ∧ decimalToken tok = some v ∧
      inIntRange v ∧ ∀ c, rest.head? = some c → isDecimalDigit c = false := by
  cases hs : SkipSpace inp with
  | error e => simp [scanInt, hs] at h
  | ok out =>
    obtain ⟨w, hw1, hw2, _⟩ := SkipSpace_ok inp out hs
    subst hw1
    rw [scanInt_blank_append w out hw2] at h
    have hidem := SkipSpace_idem _ out hs
    cases out with
    | nil => simp [scanInt, SkipSpace] at h
    | cons r rest0 =>
      by_cases hr : isSign r = true
      · cases rest0 with
        | nil => simp [scanInt, hidem, hr] at h
        | cons d more0 =>
          by_cases hd : isDecimalDigit d = true
          · have hsplit := List.takeWhile_append_dropWhile isDecimalDigit more0
            have key := scanInt_signed r d (more0.takeWhile isDecimalDigit)
              (more0.dropWhile isDecimalDigit) hr hd (takeWhile_all _ _) (dropWhile_head _ _)
            rw [hsplit, h] at key
            split_ifs at key with hrange
            simp only [Except.ok.injEq, Prod.mk.injEq] at key
            obtain ⟨k1, k2⟩ := key
            refine ⟨w, r :: d :: more0.takeWhile isDecimalDigit, ?_, hw2, ?_, ?_, ?_⟩
            · rw [k2]; simp [hsplit]
            · rw [k1]; exact decimalToken_signed r d _ hr hd (takeWhile_all _ _)
            · rw [k1]; exact hrange
            · rw [k2]; exact dropWhile_head _ _
          · simp [scanInt, hidem, hr, hd] at h
      · by_cases hd : isDecimalDigit r = true
        · have hsplit := List.takeWhile_append_dropWhile isDecimalDigit rest0
          have key := scanInt_unsigned r (rest0.takeWhile isDecimalDigit)
            (rest0.dropWhile isDecimalDigit) hd (takeWhile_all _ _) (dropWhile_head _ _)
          rw [hsplit, h] at key
          split_ifs at key with hrange
          simp only [Except.ok.injEq, Prod.mk.injEq] at key
          obtain ⟨k1, k2⟩ := key
          refine ⟨w, r :: rest0.takeWhile isDecimalDigit, ?_, hw2, ?_, ?_, ?_⟩
          · rw [k2]; simp [hsplit]
          · rw [k1]; exact decimalToken_unsigned r _ hd (takeWhile_all _ _)
          · rw [k1]; exact hrange
          · rw [k2]; exact dropWhile_head _ _
        · simp [scanInt, hidem, hr, hd] at h

theorem wrap_arith (h m s : Int) :
    addInt (addInt (mulInt h 3600) (mulInt m 60)) s = wrapInt (h * 3600 + m * 60 + s) := by
  unfold addInt mulInt wrapInt intBits
  norm_num
  omega

/-- The scanner stores fewer than three operands exactly when it reports an error. -/
theorem Sscanf_cases (st : String) :
    ((Sscanf st).err = none ∧ (Sscanf st).n = 3) ∨
    ((Sscanf st).err ≠ none ∧ (Sscanf st).n < 3) := by
  unfold Sscanf
  repeat' split
  all_goals simp

theorem colon_not_digit : ∀ (rest : List Char) (c : Char),
    (':' :: rest).head? = some c → isDecimalDigit c = false := by
  intro rest c hc
  simp only [List.head?_cons, Option.some.injEq] at hc
  subst hc
  decide

/-- Sufficiency: a text that starts with three tokens in range separated by
colons (blanks allowed before each token) is accepted, with the value of the
wrapped sum. -/
theorem parseHMS_of_shape (st : String) (w1 t1 w2 t2 w3 t3 rest : List Char) (h m s : Int)
    (hst : st.data.take hugeWid =
      w1 ++ (t1 ++ ':' :: (w2 ++ (t2 ++ ':' :: (w3 ++ (t3 ++ rest))))))
    (hw1 : isBlankRun w1 = true) (hw2 : isBlankRun w2 = true) (hw3 : isBlankRun w3 = true)
    (ht1 : decimalToken t1 = some h) (ht2 : decimalToken t2 = some m)
    (ht3 : decimalToken t3 = some s)
    (hh : inIntRange h) (hm : inIntRange m) (hs : inIntRange s)
    (hrest : ∀ c, rest.head? = some c → isDecimalDigit c = false) :
    Sscanf st = ⟨3, none, h, m, s⟩ ∧
    parseHMS st = (wrapInt (h * 3600 + m * 60 + s), none) := by
  have hS : Sscanf st = ⟨3, none, h, m, s⟩ := by
    unfold Sscanf
    rw [hst]
    simp only [scanOperand_eq_scanInt]
    rw [scanInt_of_token w1 t1 _ h hw1 ht1 hh (colon_not_digit _)]
    simp only [advanceColon, beq_self_eq_true, if_true]
    rw [scanInt_of_token w2 t2 _ m hw2 ht2 hm (colon_not_digit _)]
    simp only [advanceColon, beq_self_eq_true, if_true]
    rw [scanInt_of_token w3 t3 _ s hw3 ht3 hs hrest]
  refine ⟨hS, ?_⟩
  unfold parseHMS
  simp only [hS, ne_eq, not_true_eq_false, or_self, if_false, wrap_arith]

theorem advanceColon_ok (inp out : List Char) (h : advanceColon inp = .ok out) :
    inp = ':' :: out := by
  cases inp with
  | nil => simp [advanceColon] at h
  | cons r rest =>
    simp only [advanceColon] at h
    split_ifs at h with hr
    simp only [Except.ok.injEq] at h
    simp only [beq_iff_eq] at hr
    rw [hr, h]

/-- Necessity: an accepted text starts with three tokens in range separated
by colons. -/
theorem parseHMS_ok_shape (st : String) (hok : (parseHMS st).2 = none) :
    ∃ w1 t1 w2 t2 w3 t3 rest h m s,
      st.data.take hugeWid =
        w1 ++ (t1 ++ ':' :: (w2 ++ (t2 ++ ':' :: (w3 ++ (t3 ++ rest))))) ∧
      isBlankRun w1 = true ∧ isBlankRun w2 = true ∧ isBlankRun w3 = true ∧
      decimalToken t1 = some h ∧ decimalToken t2 = some m ∧ decimalToken t3 = some s ∧
      inIntRange h ∧ inIntRange m ∧ inIntRange s ∧
      (∀ c, rest.head? = some c → isDecimalDigit c = false) := by
  have herr : (Sscanf st).err = none := by
    unfold parseHMS at hok
    simp only at hok
    split_ifs at hok with hc
    · exact hok
    · push_neg at hc
      exact hc.1
  unfold Sscanf at herr
  simp only [scanOperand_eq_scanInt] at herr
  cases h1 : scanInt (st.data.take hugeWid) with
  | error e => simp [h1] at herr
  | ok p1 =>
    obtain ⟨h, r1⟩ := p1
    simp only [h1] at herr
    cases a1 : advanceColon r1 with
    | error e => simp [a1] at herr
    | ok r2 =>
      simp only [a1] at herr
      cases h2 : scanInt r2 with
      | error e => simp [h2] at herr
      | ok p2 =>
        obtain ⟨m, r3⟩ := p2
        simp only [h2] at herr
        cases a2 : advanceColon r3 with
        | error e => simp [a2] at herr
        | ok r4 =>
          simp only [a2] at herr
          cases h3 : scanInt r4 with
          | error e => simp [h3] at herr
          | ok p3 =>
            obtain ⟨s, r5⟩ := p3
            obtain ⟨w1, t1, e1, hw1, ht1, hh, _⟩ := scanInt_ok _ _ _ h1
            obtain ⟨w2, t2, e2, hw2, ht2, hm, _⟩ := scanInt_ok _ _ _ h2
            obtain ⟨w3, t3, e3, hw3, ht3, hs, hrest⟩ := scanInt_ok _ _ _ h3
            have c1 := advanceColon_ok _ _ a1
            have c2 := advanceColon_ok _ _ a2
            refine ⟨w1, t1, w2, t2, w3, t3, r5, h, m, s, ?_, hw1, hw2, hw3, ht1, ht2, ht3,
              hh, hm, hs, hrest⟩
            rw [e1, c1, e2, c2, e3]

/-! ## The loops, characterised -/

theorem neighborLoop_spec (u : Char → Char) (vrfName ifaceName : String) :
    ∀ (ns : GoMap pimNeighbor) (o : Out) (c : Int),
      (neighborLoop u vrfName ifaceName ns o c).1.ch =
        o.ch ++ ns.flatMap (peerObservations u vrfName ifaceName) ∧
      (neighborLoop u vrfName ifaceName ns o c).2 = c + (ns.length : Int) := by
  intro ns
  induction ns with
  | nil => intro o c; simp [neighborLoop]
  | cons p rest ih =>
    intro o c
    obtain ⟨k, nb⟩ := p
    unfold neighborLoop
    cases hp : parseHMS nb.UpTime with
    | mk val err =>
      cases err with
      | none =>
        simp only
        obtain ⟨h1, h2⟩ := ih (newGauge o (pimDesc.get? "upTime") (float64 val)
          [ToLower u vrfName, ToLower u ifaceName, k]) (c + 1)
        rw [h1, h2]
        constructor
        · simp [newGauge, peerObservations, hp, List.flatMap_cons]
        · simp only [List.length_cons]; push_cast; ring
      | some e =>
        simp only
        obtain ⟨h1, h2⟩ := ih (logError o "cannot parse neighbor uptime" nb.UpTime e) (c + 1)
        rw [h1, h2]
        constructor
        · simp [logError, peerObservations, hp, List.flatMap_cons]
        · simp only [List.length_cons]; push_cast; ring

theorem ifaceLoop_ok (u : Char → Char) (vrfName : String) :
    ∀ (ifs : GoMap Json) (t : GoMap (GoMap pimNeighbor)) (o : Out) (c : Int),
      decodeIfaces ifs = .ok t →
      (ifaceLoop u vrfName ifs o c).1.ch = o.ch ++ uptimeObservations u vrfName t ∧
      (ifaceLoop u vrfName ifs o c).2 = .ok (c + (peerCount t : Int)) := by
  intro ifs
  induction ifs with
  | nil =>
    intro t o c h
    simp only [decodeIfaces, Except.ok.injEq] at h
    subst h
    simp [ifaceLoop, uptimeObservations, peerCount]
  | cons p rest ih =>
    intro t o c h
    obtain ⟨name, raw⟩ := p
    unfold decodeIfaces at h
    unfold ifaceLoop
    cases hn : unmarshalNeighbors raw with
    | error e => simp [hn] at h
    | ok nbs =>
      simp only [hn] at h ⊢
      cases hr : decodeIfaces rest with
      | error e => simp [hr] at h
      | ok t1 =>
        simp only [hr, Except.ok.injEq] at h
        subst h
        obtain ⟨n1, n2⟩ := neighborLoop_spec u vrfName name nbs o c
        obtain ⟨h1, h2⟩ := ih t1 (neighborLoop u vrfName name nbs o c).1
          (neighborLoop u vrfName name nbs o c).2 hr
        rw [h1, h2, n1, n2]
        constructor
        · simp [uptimeObservations, List.flatMap_cons]
        · simp only [peerCount, List.map_cons, List.sum_cons]; push_cast; rw [add_assoc]

theorem ifaceLoop_error (u : Char → Char) (vrfName : String) :
    ∀ (ifs : GoMap Json) (o : Out) (c : Int) (e : PimError),
      (ifaceLoop u vrfName ifs o c).2 = .error e →
      ∃ pre x post tpre je, ifs = pre ++ x :: post ∧ decodeIfaces pre = .ok tpre ∧
        unmarshalNeighbors x.2 = .error je ∧ e = .cannotUnmarshalNeighbor je ∧
        (ifaceLoop u vrfName ifs o c).1.ch = o.ch ++ uptimeObservations u vrfName tpre := by
  intro ifs
  induction ifs with
  | nil => intro o c e h; simp [ifaceLoop] at h
  | cons p rest ih =>
    intro o c e h
    obtain ⟨name, raw⟩ := p
    unfold ifaceLoop at h ⊢
    cases hn : unmarshalNeighbors raw with
    | error je =>
      simp only [hn, Except.error.injEq] at h ⊢
      exact ⟨[], (name, raw), rest, [], je, rfl, rfl, hn, h.symm, by simp [uptimeObservations]⟩
    | ok nbs =>
      simp only [hn] at h ⊢
      obtain ⟨pre, x, post, tpre, je, e1, e2, e3, e4, e5⟩ := ih _ _ e h
      obtain ⟨n1, _⟩ := neighborLoop_spec u vrfName name nbs o c
      refine ⟨(name, raw) :: pre, x, post, (name, nbs) :: tpre, je, by simp [e1], ?_, e3, e4, ?_⟩
      · simp [decodeIfaces, hn, e2]
      · rw [e5, n1]; simp [uptimeObservations, List.flatMap_cons]

theorem ifaceLoop_decodes (u : Char → Char) (vrfName : String) :
    ∀ (ifs : GoMap Json) (o : Out) (c cnt : Int),
      (ifaceLoop u vrfName ifs o c).2 = .ok cnt → ∃ t, decodeIfaces ifs = .ok t := by
  intro ifs
  induction ifs with
  | nil => intro o c cnt _; exact ⟨[], rfl⟩
  | cons p rest ih =>
    intro o c cnt h
    obtain ⟨name, raw⟩ := p
    unfold ifaceLoop at h
    cases hn : unmarshalNeighbors raw with
    | error je => simp [hn] at h
    | ok nbs =>
      simp only [hn] at h
      obtain ⟨t, ht⟩ := ih _ _ cnt h
      exact ⟨(name, nbs) :: t, by simp [decodeIfaces, hn, ht]⟩

theorem vrfLoop_ok (u : Char → Char) :
    ∀ (m : GoMap Json) (t : ScopeTree) (o : Out),
      decodeVrfs m = .ok t →
      (vrfLoop u m o).1.ch = o.ch ++ treeObservations u t ∧ (vrfLoop u m o).2 = none := by
  intro m
  induction m with
  | nil =>
    intro t o h
    simp only [decodeVrfs, Except.ok.injEq] at h
    subst h
    simp [vrfLoop, treeObservations]
  | cons p rest ih =>
    intro t o h
    obtain ⟨name, raw⟩ := p
    unfold decodeVrfs at h
    unfold vrfLoop
    cases hm : unmarshalRawMap raw with
    | error e => simp [hm] at h
    | ok inst =>
      simp only [hm] at h ⊢
      cases hi : decodeIfaces inst with
      | error e => simp [hi] at h
      | ok ifs =>
        simp only [hi] at h
        cases hr : decodeVrfs rest with
        | error e => simp [hr] at h
        | ok t1 =>
          simp only [hr, Except.ok.injEq] at h
          subst h
          obtain ⟨i1, i2⟩ := ifaceLoop_ok u name inst ifs o 0 hi
          cases hl : ifaceLoop u name inst o 0 with
          | mk o1 res =>
            rw [hl] at i1 i2
            simp only at i1 i2
            subst i2
            simp only
            obtain ⟨h1, h2⟩ := ih t1 (newGauge o1 (pimDesc.get? "neighborCount")
              (0 + (peerCount ifs : Int)) [name]) hr
            rw [h1, h2]
            refine ⟨?_, rfl⟩
            simp [newGauge, i1, treeObservations, List.flatMap_cons, domainObservations,
              countObservation]

/-- Where a failing run of the outer loop stops, and what it has sent by then. -/
theorem vrfLoop_error (u : Char → Char) :
    ∀ (m : GoMap Json) (o : Out) (e : PimError),
      (vrfLoop u m o).2 = some e →
      ∃ pre x post tpre ipre, m = pre ++ x :: post ∧ decodeVrfs pre = .ok tpre ∧
        (vrfLoop u m o).1.ch =
          o.ch ++ (treeObservations u tpre ++ uptimeObservations u x.1 ipre) ∧
        ((∃ je, unmarshalRawMap x.2 = .error je ∧ ipre = [] ∧
            e = .cannotUnmarshalVrfInstance je) ∨
         (∃ inst a y b je, unmarshalRawMap x.2 = .ok inst ∧ inst = a ++ y :: b ∧
            decodeIfaces a = .ok ipre ∧ unmarshalNeighbors y.2 = .error je ∧
            e = .cannotUnmarshalNeighbor je)) := by
  intro m
  induction m with
  | nil => intro o e h; simp [vrfLoop] at h
  | cons p rest ih =>
    intro o e h
    obtain ⟨name, raw⟩ := p
    unfold vrfLoop at h ⊢
    cases hm : unmarshalRawMap raw with
    | error je =>
      simp only [hm, Option.some.injEq] at h ⊢
      exact ⟨[], (name, raw), rest, [], [], rfl, rfl,
        by simp [treeObservations, uptimeObservations], Or.inl ⟨je, hm, rfl, h.symm⟩⟩
    | ok inst =>
      simp only [hm] at h ⊢
      cases hl : ifaceLoop u name inst o 0 with
      | mk o1 res =>
        cases res with
        | error e1 =>
          simp only [hl, Option.some.injEq] at h ⊢
          subst h
          have hl2 : (ifaceLoop u name inst o 0).2 = .error e1 := by rw [hl]
          obtain ⟨a, y, b, ipre, je, e1', e2, e3, e4, e5⟩ := ifaceLoop_error u name inst o 0 e1 hl2
          rw [hl] at e5
          simp only at e5
          exact ⟨[], (name, raw), rest, [], ipre, rfl, rfl,
            by simp [treeObservations, e5], Or.inr ⟨inst, a, y, b, je, hm, e1', e2, e3, e4⟩⟩
        | ok cnt =>
          simp only [hl] at h ⊢
          have hl1 : (ifaceLoop u name inst o 0).1 = o1 := by rw [hl]
          have hl2 : (ifaceLoop u name inst o 0).2 = .ok cnt := by rw [hl]
          obtain ⟨pre, x, post, tpre, ipre, e1, e2, e3, e4⟩ := ih _ e h
          cases hi : decodeIfaces inst with
          | error je =>
            obtain ⟨t, ht⟩ := ifaceLoop_decodes u name inst o 0 cnt hl2
            rw [ht] at hi; cases hi
          | ok ifs =>
            obtain ⟨i1, i2⟩ := ifaceLoop_ok u name inst ifs o 0 hi
            rw [hl1] at i1
            rw [hl2] at i2
            simp only [Except.ok.injEq] at i2
            refine ⟨(name, raw) :: pre, x, post, (name, ifs) :: tpre, ipre, by simp [e1], ?_,
              ?_, e4⟩
            · simp [decodeVrfs, hm, hi, e2]
            · rw [e3]
              simp [newGauge, i1, i2, treeObservations, List.flatMap_cons, domainObservations,
                countObservation]

theorem vrfLoop_decodes (u : Char → Char) :
    ∀ (m : GoMap Json) (o : Out), (vrfLoop u m o).2 = none → ∃ t, decodeVrfs m = .ok t := by
  intro m
  induction m with
  | nil => intro o _; exact ⟨[], rfl⟩
  | cons p rest ih =>
    intro o h
    obtain ⟨name, raw⟩ := p
    unfold vrfLoop at h
    cases hm : unmarshalRawMap raw with
    | error je => simp [hm] at h
    | ok inst =>
      simp only [hm] at h
      cases hl : ifaceLoop u name inst o 0 with
      | mk o1 res =>
        cases res with
        | error e1 => simp [hl] at h
        | ok cnt =>
          simp only [hl] at h
          have hl2 : (ifaceLoop u name inst o 0).2 = .ok cnt := by rw [hl]
          obtain ⟨ifs, hi⟩ := ifaceLoop_decodes u name inst o 0 cnt hl2
          obtain ⟨t, ht⟩ := ih _ h
          exact ⟨(name, ifs) :: t, by simp [decodeVrfs, hm, hi, ht]⟩

/-- A fully decodable input: no error, and the channel holds the observations
of the tree, domain after domain. -/
theorem processPIMNeighbors_decoded (u : Char → Char) (doc : Option Json) (t : ScopeTree)
    (h : decodeTree doc = .ok t) :
    (processPIMNeighbors u doc).1.ch = treeObservations u t ∧
    (processPIMNeighbors u doc).2 = none := by
  unfold decodeTree at h
  unfold processPIMNeighbors
  cases hb : unmarshalBytes doc with
  | error e => simp [hb] at h
  | ok m =>
    simp only [hb] at h ⊢
    have := vrfLoop_ok u m t ⟨[], []⟩ h
    simpa using this

/-- No error is returned exactly when the input decodes at all three levels. -/
theorem processPIMNeighbors_ok_iff (u : Char → Char) (doc : Option Json) :
    (processPIMNeighbors u doc).2 = none ↔ ∃ t, decodeTree doc = .ok t := by
  constructor
  · intro h
    unfold processPIMNeighbors at h
    unfold decodeTree
    cases hb : unmarshalBytes doc with
    | error e => simp [hb] at h
    | ok m =>
      simp only [hb] at h ⊢
      exact vrfLoop_decodes u m _ h
  · rintro ⟨t, ht⟩
    exact (processPIMNeighbors_decoded u doc t ht).2

theorem digitsValue_zeros (n : Nat) : digitsValue (List.replicate n '0') = 0 := by
  unfold digitsValue
  induction n with
  | zero => rfl
  | succ k ih =>
    rw [List.replicate_succ, List.foldl_cons]
    exact ih

theorem all_digits_zeros (n : Nat) : (List.replicate n '0').all isDecimalDigit = true := by
  induction n with
  | zero => rfl
  | succ k ih =>
    rw [List.replicate_succ, List.all_cons, ih]
    rfl

/-- A text whose readable part is a run of zeros: the first operand is 0 and
the colon is never reached. -/
theorem parseHMS_zeros (st : String) (n : Nat)
    (hst : st.data.take hugeWid = List.replicate (n + 1) '0') :
    parseHMS st = (0, some .unexpectedEOF) := by
  have htok : decimalToken (List.replicate (n + 1) '0') = some 0 := by
    rw [List.replicate_succ, decimalToken_unsigned '0' _ (by decide) (all_digits_zeros n)]
    unfold signedValue
    rw [← List.replicate_succ, digitsValue_zeros]
    rfl
  have hscan : scanInt (st.data.take hugeWid) = .ok (0, []) := by
    rw [hst]
    have := scanInt_of_token [] (List.replicate (n + 1) '0') [] 0 rfl htok (by decide) (by simp)
    simpa using this
  have hS : Sscanf st = ⟨1, some .unexpectedEOF, 0, 0, 0⟩ := by
    unfold Sscanf
    simp only [scanOperand_eq_scanInt]
    rw [hscan]
    rfl
  unfold parseHMS
  rw [hS]
  rfl

/-! ## `parseHMS` -/

/-- Claim C4, as stated, fails: an hours component outside the range of a Go
`int` makes `parseHMS` fail; one inside it whose product with 3600 leaves the
range gives the wrapped value, not `h*3600 + m*60 + s`; and in a text of more
than `hugeWid` runes (here the hours 1 written with `hugeWid` leading zeros)
the scanner stops reading before the first colon. -/
theorem parseHMS_component_bound :
    parseHMS "9223372036854775808:0:0" = (0, some .valueOutOfRange) ∧
    parseHMS "9223372036854775807:0:0" = (-3600, none) ∧
    parseHMS (String.mk (List.replicate hugeWid '0' ++ "1:0:0".data)) =
      (0, some .unexpectedEOF) := by
  refine ⟨by decide, by decide, ?_⟩
  apply parseHMS_zeros _ (hugeWid - 1)
  have h1 : hugeWid - 1 + 1 = hugeWid := by decide
  rw [h1]
  exact List.take_left' (List.length_replicate _ _)

/-- Claim C4, amended: for decimal tokens `th`, `tm`, `ts` (optional sign, at
least one digit, leading zeros allowed) that write integers `h`, `m`, `s` in
the range of a Go `int`, in a text of at most `hugeWid` runes, `parseHMS`
applied to `th:tm:ts` succeeds and returns `h*3600 + m*60 + s` reduced to the
`int` range, which is the sum itself whenever the sum is in range; minutes and
seconds are not bounded by 60. The three examples of the spec hold. -/
theorem parseHMS_decimal (th tm ts : List Char) (h m s : Int)
    (hh : decimalToken th = some h) (hm : decimalToken tm = some m)
    (hs : decimalToken ts = some s)
    (rh : inIntRange h) (rm : inIntRange m) (rs : inIntRange s)
    (hlen : (th ++ ':' :: (tm ++ ':' :: ts)).length ≤ hugeWid) :
    parseHMS (String.mk (th ++ ':' :: (tm ++ ':' :: ts))) =
      (wrapInt (h * 3600 + m * 60 + s), none) ∧
    (inIntRange (h * 3600 + m * 60 + s) →
      parseHMS (String.mk (th ++ ':' :: (tm ++ ':' :: ts))) = (h * 3600 + m * 60 + s, none)) ∧
    parseHMS "0:00:00" = (0, none) ∧ parseHMS "1:02:03" = (3723, none) ∧
    parseHMS "25:00:00" = (90000, none) := by
  have key := (parseHMS_of_shape (String.mk (th ++ ':' :: (tm ++ ':' :: ts)))
    [] th [] tm [] ts [] h m s
    (by simp only [List.nil_append, List.append_nil]; exact List.take_of_length_le hlen)
    rfl rfl rfl hh hm hs rh rm rs (by simp)).2
  refine ⟨key, ?_, by decide, by decide, by decide⟩
  intro hr
  rw [key, wrapInt_of_inIntRange _ hr]

/-- Claim C4, amended, at the text "-7:90:+0075" (minutes above 59, a sign, leading zeros). -/
theorem parseHMS_decimal_witness :
    parseHMS (String.mk ("-7".data ++ ':' :: ("90".data ++ ':' :: "+0075".data))) =
      (wrapInt (-7 * 3600 + 90 * 60 + 75), none) ∧
    (inIntRange (-7 * 3600 + 90 * 60 + 75) →
      parseHMS (String.mk ("-7".data ++ ':' :: ("90".data ++ ':' :: "+0075".data))) =
        (-7 * 3600 + 90 * 60 + 75, none)) ∧
    parseHMS "0:00:00" = (0, none) ∧ parseHMS "1:02:03" = (3723, none) ∧
    parseHMS "25:00:00" = (90000, none) :=
  parseHMS_decimal "-7".data "90".data "+0075".data (-7) 90 75 (by decide) (by decide)
    (by decide) (by decide) (by decide) (by decide) (by decide)

/-- Claim C5, as stated, fails: texts that are not exactly of the shape
`integer:integer:integer` (text after the third integer, blanks before an
integer) are accepted. -/
theorem parseHMS_accepts_inexact_shape :
    isExactHMS "1:02:03xyz" = false ∧ parseHMS "1:02:03xyz" = (3723, none) ∧
    isExactHMS " 1: 02: 03" = false ∧ parseHMS " 1: 02: 03" = (3723, none) := by
  refine ⟨by decide, by decide, by decide, by decide⟩

/-- Claim C5, amended: `parseHMS` reports success exactly when the text (its
first `hugeWid` runes) starts with three decimal tokens in the range of a Go
`int`, separated by two colons, each token optionally preceded by blanks
other than newline, the third not followed by a further digit; whatever
follows is ignored. Whenever fewer than three integers were scanned the error
is non-nil and the value is 0, so `(0, nil)` is never returned for such a
text; "bad" and "1:02" are rejected. -/
theorem parseHMS_success_iff_prefix (st : String) :
    ((parseHMS st).2 = none ↔
      ∃ w1 t1 w2 t2 w3 t3 rest h m s,
        st.data.take hugeWid =
          w1 ++ (t1 ++ ':' :: (w2 ++ (t2 ++ ':' :: (w3 ++ (t3 ++ rest))))) ∧
        isBlankRun w1 = true ∧ isBlankRun w2 = true ∧ isBlankRun w3 = true ∧
        decimalToken t1 = some h ∧ decimalToken t2 = some m ∧ decimalToken t3 = some s ∧
        inIntRange h ∧ inIntRange m ∧ inIntRange s ∧
        (∀ c, rest.head? = some c → isDecimalDigit c = false)) ∧
    ((Sscanf st).n < 3 → (parseHMS st).2 ≠ none ∧ (parseHMS st).1 = 0) ∧
    ((parseHMS st).2 = none → (Sscanf st).n = 3) ∧
    (parseHMS "bad").2 ≠ none ∧ (parseHMS "1:02").2 ≠ none := by
  refine ⟨⟨parseHMS_ok_shape st, ?_⟩, ?_, ?_, by decide, by decide⟩
  · rintro ⟨w1, t1, w2, t2, w3, t3, rest, h, m, s, hst, hw1, hw2, hw3, ht1, ht2, ht3,
      hh, hm, hs, hrest⟩
    rw [(parseHMS_of_shape st w1 t1 w2 t2 w3 t3 rest h m s hst hw1 hw2 hw3 ht1 ht2 ht3
      hh hm hs hrest).2]
  · intro hn
    rcases Sscanf_cases st with ⟨_, h3⟩ | ⟨he, _⟩
    · omega
    · unfold parseHMS
      simp [he]
  · intro hok
    rcases Sscanf_cases st with ⟨_, h3⟩ | ⟨he, _⟩
    · exact h3
    · exfalso
      unfold parseHMS at hok
      simp [he] at hok

/-! ## The collector -/

/-- A whole number of magnitude at most 2^53 is a float64. -/
theorem float64_exact (x : Int) (hx : x.natAbs ≤ 2 ^ 53) : float64 x = x := by
  rcases Nat.lt_or_ge x.natAbs (2 ^ 53) with hlt | hge
  · have hk : (List.range 11).filter (fun j => decide (2 ^ (53 + j) ≤ x.natAbs)) = [] := by
      rw [List.filter_eq_nil_iff]
      intro j _
      have : 2 ^ 53 ≤ 2 ^ (53 + j) := Nat.pow_le_pow_right (by decide) (Nat.le_add_right _ _)
      simp only [decide_eq_true_eq]
      omega
    unfold float64
    simp only [hk, List.length_nil, pow_zero, Nat.div_one, Nat.mod_one, mul_zero, Nat.lt_one_iff,
      if_true, mul_one]
    split_ifs <;> omega
  · have ha : x.natAbs = 2 ^ 53 := le_antisymm hx hge
    rcases Int.natAbs_eq x with h | h
    · rw [ha] at h; rw [h]; decide
    · rw [ha] at h; rw [h]; decide

/-- On ASCII text `ToLower` is the lower-casing of ASCII letters, whatever the
Unicode tables are. -/
theorem ToLower_ascii (u : Char → Char) (s : String) (hs : ∀ c ∈ s.data, c.toNat ≤ 127) :
    (ToLower u s).data = s.data.map Char.toLower := by
  unfold ToLower
  simp only
  apply List.map_congr_left
  intro c hc
  have h127 := hs c hc
  unfold runeToLower Char.toLower
  simp only [h127, if_true, ge_iff_le]

/-- Where a failing call stops, and what it has sent by then. -/
theorem processPIMNeighbors_failed (u : Char → Char) (doc : Option Json) (e : PimError)
    (h : (processPIMNeighbors u doc).2 = some e) :
    (∀ je, unmarshalBytes doc = .error je →
      (processPIMNeighbors u doc).1.ch = [] ∧ e = .cannotUnmarshalNeighborsJson je) ∧
    (∀ jsonMap, unmarshalBytes doc = .ok jsonMap →
      ∃ pre x post tpre ipre, jsonMap = pre ++ x :: post ∧ decodeVrfs pre = .ok tpre ∧
        (processPIMNeighbors u doc).1.ch =
          treeObservations u tpre ++ uptimeObservations u x.1 ipre ∧
        ((∃ je, unmarshalRawMap x.2 = .error je ∧ ipre = [] ∧
            e = .cannotUnmarshalVrfInstance je) ∨
         (∃ inst a y b je, unmarshalRawMap x.2 = .ok inst ∧ inst = a ++ y :: b ∧
            decodeIfaces a = .ok ipre ∧ unmarshalNeighbors y.2 = .error je ∧
            e = .cannotUnmarshalNeighbor je))) := by
  unfold processPIMNeighbors at h ⊢
  cases hb : unmarshalBytes doc with
  | error je0 =>
    simp only [hb, Option.some.injEq] at h ⊢
    refine ⟨?_, ?_⟩
    · intro je hje
      simp only [Except.error.injEq] at hje
      subst hje
      exact ⟨trivial, h.symm⟩
    · intro m hm; cases hm
  | ok m0 =>
    simp only [hb] at h ⊢
    refine ⟨?_, ?_⟩
    · intro je hje; cases hje
    · intro m hm
      simp only [Except.ok.injEq] at hm
      subst hm
      obtain ⟨pre, x, post, tpre, ipre, e1, e2, e3, e4⟩ := vrfLoop_error u m0 ⟨[], []⟩ e h
      exact ⟨pre, x, post, tpre, ipre, e1, e2, by simpa using e3, e4⟩

/-- Claim C1, as stated, fails: when a VRF, or an interface, visited after a
decodable one does not decode, the call returns an error after it has sent
the observations of what it visited before. -/
theorem partial_emission_before_decode_failure :
    (processPIMNeighbors asciiOnly (some tornVrfDoc)).2 =
      some (.cannotUnmarshalVrfInstance .unmarshalTypeError) ∧
    (processPIMNeighbors asciiOnly (some tornVrfDoc)).1.ch =
      [⟨pimDesc.get? "upTime", 300, ["a", "eth0", "10.0.0.1"]⟩,
       ⟨pimDesc.get? "neighborCount", 1, ["a"]⟩] ∧
    (processPIMNeighbors asciiOnly (some tornIfaceDoc)).2 =
      some (.cannotUnmarshalNeighbor .unmarshalTypeError) ∧
    (processPIMNeighbors asciiOnly (some tornIfaceDoc)).1.ch =
      [⟨pimDesc.get? "upTime", 300, ["a", "eth0", "10.0.0.1"]⟩] := by
  refine ⟨by decide, by decide, by decide, by decide⟩

/-- Claim C1, amended: when `processPIMNeighbors` returns an error from the
outer decode, nothing has been sent. When it returns an error from the decode
of a VRF `x` or of one of its interfaces `y`, what has been sent is exactly
the output of what was visited before the failure: every observation (uptime
and count) of the VRFs `pre` visited before `x`, followed by the uptime
observations of the interfaces `a` of `x` visited before `y`; nothing is sent
for `y`, no count is sent for `x`, nothing is sent for the VRFs after `x`. -/
theorem decode_failure_emits_visited_prefix (u : Char → Char) (doc : Option Json)
    (e : PimError) (h : (processPIMNeighbors u doc).2 = some e) :
    (∀ je, unmarshalBytes doc = .error je → (processPIMNeighbors u doc).1.ch = []) ∧
    (∀ jsonMap, unmarshalBytes doc = .ok jsonMap →
      ∃ pre x post tpre ipre, jsonMap = pre ++ x :: post ∧ decodeVrfs pre = .ok tpre ∧
        (processPIMNeighbors u doc).1.ch =
          tpre.flatMap (fun d => uptimeObservations u d.1 d.2 ++ [countObservation d]) ++
            uptimeObservations u x.1 ipre ∧
        ((∃ je, unmarshalRawMap x.2 = .error je ∧ ipre = []) ∨
         (∃ inst a y b je, unmarshalRawMap x.2 = .ok inst ∧ inst = a ++ y :: b ∧
            decodeIfaces a = .ok ipre ∧ unmarshalNeighbors y.2 = .error je))) := by
  obtain ⟨h1, h2⟩ := processPIMNeighbors_failed u doc e h
  refine ⟨fun je hje => (h1 je hje).1, ?_⟩
  intro m hm
  obtain ⟨pre, x, post, tpre, ipre, e1, e2, e3, e4⟩ := h2 m hm
  refine ⟨pre, x, post, tpre, ipre, e1, e2, e3, ?_⟩
  rcases e4 with ⟨je, a1, a2, _⟩ | ⟨inst, a, y, b, je, a1, a2, a3, a4, _⟩
  · exact Or.inl ⟨je, a1, a2⟩
  · exact Or.inr ⟨inst, a, y, b, je, a1, a2, a3, a4⟩

/-- Claim C1, amended, at the document whose second interface does not decode. -/
theorem decode_failure_emits_visited_prefix_witness :
    (processPIMNeighbors asciiOnly (some tornIfaceDoc)).2 =
      some (.cannotUnmarshalNeighbor .unmarshalTypeError) ∧
    ((∀ je, unmarshalBytes (some tornIfaceDoc) = .error je →
      (processPIMNeighbors asciiOnly (some tornIfaceDoc)).1.ch = []) ∧
    (∀ jsonMap, unmarshalBytes (some tornIfaceDoc) = .ok jsonMap →
      ∃ pre x post tpre ipre, jsonMap = pre ++ x :: post ∧ decodeVrfs pre = .ok tpre ∧
        (processPIMNeighbors asciiOnly (some tornIfaceDoc)).1.ch =
          tpre.flatMap (fun d => uptimeObservations asciiOnly d.1 d.2 ++ [countObservation d]) ++
            uptimeObservations asciiOnly x.1 ipre ∧
        ((∃ je, unmarshalRawMap x.2 = .error je ∧ ipre = []) ∨
         (∃ inst a y b je, unmarshalRawMap x.2 = .ok inst ∧ inst = a ++ y :: b ∧
            decodeIfaces a = .ok ipre ∧ unmarshalNeighbors y.2 = .error je)))) :=
  ⟨by decide,
   decode_failure_emits_visited_prefix asciiOnly (some tornIfaceDoc)
     (.cannotUnmarshalNeighbor .unmarshalTypeError) (by decide)⟩

/-- Claim C7, as stated, fails on the value: the seconds that `parseHMS`
returns are sent as `float64(uptimeSec)`, and 2^53 + 1 seconds is sent as
2^53. -/
theorem uptime_value_rounded :
    parseHMS "0:0:9007199254740993" = (9007199254740993, none) ∧
    (processPIMNeighbors asciiOnly (some roundingDoc)).1.ch =
      [⟨pimDesc.get? "upTime", 9007199254740992, ["default", "eth0", "10.0.0.1"]⟩,
       ⟨pimDesc.get? "neighborCount", 1, ["default"]⟩] := by
  refine ⟨by decide, by decide⟩

/-- Claim C7, amended: for a fully decodable input the channel holds, domain
after domain, for every interface and every peer of it, exactly one uptime
observation when `parseHMS` accepts the peer's `UpTime` with result `s`, with
value `float64(s)` and the label values lower-cased domain key, lower-cased
interface key and peer key unchanged (the keys of the three mappings, not the
fields `Interface` and `Neighbor` of the record), and none when `parseHMS`
rejects it; the count observation of the domain follows. `float64(s)` is `s`
whenever the magnitude of `s` is at most 2^53, and on ASCII keys the
lower-casing turns the capitals `A`..`Z` into `a`..`z` and changes nothing
else. -/
theorem uptime_observation_per_peer (u : Char → Char) (doc : Option Json) (t : ScopeTree)
    (h : decodeTree doc = .ok t) :
    (processPIMNeighbors u doc).1.ch =
      t.flatMap (fun d =>
        d.2.flatMap (fun i =>
          i.2.flatMap (fun p =>
            if (parseHMS p.2.UpTime).2 = none then
              [(⟨pimDesc.get? "upTime", float64 (parseHMS p.2.UpTime).1,
                [ToLower u d.1, ToLower u i.1, p.1]⟩ : Metric)]
            else [])) ++
        [⟨pimDesc.get? "neighborCount", (peerCount d.2 : Int), [d.1]⟩]) ∧
    (∀ x : Int, x.natAbs ≤ 2 ^ 53 → float64 x = x) ∧
    (∀ s : String, (∀ c ∈ s.data, c.toNat ≤ 127) →
      (ToLower u s).data = s.data.map Char.toLower) := by
  refine ⟨?_, float64_exact, ToLower_ascii u⟩
  rw [(processPIMNeighbors_decoded u doc t h).1]
  rfl

/-- Claim C7, amended, at a document with capital letters in the keys of all
three levels: the domain and interface keys arrive lower-cased, the peer key
"FE80::A" arrives as spelled, and the uptime of 2^53 + 3 seconds arrives as
the float64 2^53 + 4. -/
theorem uptime_observation_per_peer_witness :
    decodeTree (some mixedCaseDoc) = .ok mixedCaseTree ∧
    ((processPIMNeighbors asciiOnly (some mixedCaseDoc)).1.ch =
      mixedCaseTree.flatMap (fun d =>
        d.2.flatMap (fun i =>
          i.2.flatMap (fun p =>
            if (parseHMS p.2.UpTime).2 = none then
              [(⟨pimDesc.get? "upTime", float64 (parseHMS p.2.UpTime).1,
                [ToLower asciiOnly d.1, ToLower asciiOnly i.1, p.1]⟩ : Metric)]
            else [])) ++
        [⟨pimDesc.get? "neighborCount", (peerCount d.2 : Int), [d.1]⟩]) ∧
    (∀ x : Int, x.natAbs ≤ 2 ^ 53 → float64 x = x) ∧
    (∀ s : String, (∀ c ∈ s.data, c.toNat ≤ 127) →
      (ToLower asciiOnly s).data = s.data.map Char.toLower)) ∧
    (processPIMNeighbors asciiOnly (some mixedCaseDoc)).1.ch =
      [⟨pimDesc.get? "upTime", 1, ["red", "eth0", "FE80::A"]⟩,
       ⟨pimDesc.get? "upTime", 2, ["red", "eth0", "10.0.0.2"]⟩,
       ⟨pimDesc.get? "upTime", 3, ["red", "eth1", "FE80::A"]⟩,
       ⟨pimDesc.get? "neighborCount", 3, ["Red"]⟩,
       ⟨pimDesc.get? "upTime", 9007199254740996, ["blue", "eth0", "FE80::A"]⟩,
       ⟨pimDesc.get? "neighborCount", 1, ["blue"]⟩] :=
  ⟨by rfl,
   uptime_observation_per_peer asciiOnly (some mixedCaseDoc) mixedCaseTree (by rfl),
   ((uptime_observation_per_peer asciiOnly (some mixedCaseDoc) mixedCaseTree (by rfl)).1).trans
     (by decide)⟩

/-- Claim C9: when the acquisition fails, `Update` returns an error
that wraps the acquisition error and has sent nothing; when it succeeds,
`Update` returns what `processPIMNeighbors` returns on the acquired bytes and
has sent what it sent; so `Update` fails exactly when the acquisition fails or
the bytes do not decode at all three levels. -/
theorem Update_propagates (u : Char → Char) (acquired : Except String (Option Json)) :
    (∀ cause, acquired = .error cause →
      Update u acquired = (⟨[], []⟩, some (.cannotGetNeighbors cause))) ∧
    (∀ bytes, acquired = .ok bytes → Update u acquired = processPIMNeighbors u bytes) ∧
    ((Update u acquired).2 ≠ none ↔
      (∃ cause, acquired = .error cause) ∨
      (∃ bytes, acquired = .ok bytes ∧ (processPIMNeighbors u bytes).2 ≠ none)) ∧
    ((Update u acquired).2 ≠ none ↔
      (∃ cause, acquired = .error cause) ∨
      (∃ bytes, acquired = .ok bytes ∧ ¬ ∃ t, decodeTree bytes = .ok t)) := by
  have hok : ∀ bytes, Update u (.ok bytes) = processPIMNeighbors u bytes := by
    intro bytes
    unfold Update
    simp only
    cases hp : processPIMNeighbors u bytes with
    | mk o err => cases err <;> rfl
  cases acquired with
  | error cause =>
    refine ⟨?_, ?_, ?_, ?_⟩
    · intro c hc; cases hc; rfl
    · intro b hb; cases hb
    · simp [Update]
    · simp [Update]
  | ok bytes =>
    refine ⟨?_, ?_, ?_, ?_⟩
    · intro c hc; cases hc
    · intro b hb; cases hb; exact hok bytes
    · rw [hok]; simp
    · rw [hok]
      constructor
      · intro h
        exact Or.inr ⟨bytes, rfl, fun ht => h ((processPIMNeighbors_ok_iff u bytes).2 ht)⟩
      · rintro (⟨c, hc⟩ | ⟨b, hb, hn⟩)
        · cases hc
        · cases hb
          exact fun h => hn ((processPIMNeighbors_ok_iff u bytes).1 h)

/-- Claim C3 fails on the code: the descriptor of the uptime metric declares
the label names "vrf", "neighbor", "iface", while each uptime observation
carries the values domain, interface, peer, as the comment in the loop says;
in the scenario of the spec the interface "eth0" is published under
"neighbor" and the peer "10.0.0.1" under "iface". -/
theorem upTime_label_names_misaligned :
    pimNeighborLabels = ["vrf", "neighbor", "iface"] ∧
    pimNeighborLabels ≠ ["vrf", "iface", "neighbor"] ∧
    (pimDesc.get? "upTime").map (fun d => d.labels) = some ["vrf", "neighbor", "iface"] ∧
    ((processPIMNeighbors asciiOnly (some sampleDoc)).1.ch.head?.map
        (fun m => (m.desc.map (fun d => d.labels.zip m.labels)))) =
      some (some [("vrf", "default"), ("neighbor", "eth0"), ("iface", "10.0.0.1")]) := by
  refine ⟨by decide, by decide, by decide, by decide⟩

theorem mem_peerObservations (u : Char → Char) (v i : String) (p : String × pimNeighbor)
    (m : Metric) (h : m ∈ peerObservations u v i p) :
    m = ⟨pimDesc.get? "upTime", float64 (parseHMS p.2.UpTime).1, [ToLower u v, ToLower u i, p.1]⟩ ∧
    (parseHMS p.2.UpTime).2 = none := by
  unfold peerObservations at h
  split_ifs at h with hacc
  · simp only [List.mem_singleton] at h
    exact ⟨h, hacc⟩
  · simp at h

theorem mem_uptimeObservations (u : Char → Char) (v : String) (ifs : GoMap (GoMap pimNeighbor))
    (m : Metric) (h : m ∈ uptimeObservations u v ifs) :
    ∃ i ∈ ifs, ∃ p ∈ i.2,
      m = ⟨pimDesc.get? "upTime", float64 (parseHMS p.2.UpTime).1, [ToLower u v, ToLower u i.1, p.1]⟩ ∧
      (parseHMS p.2.UpTime).2 = none := by
  unfold uptimeObservations at h
  simp only [List.mem_flatMap] at h
  obtain ⟨i, hi, p, hp, hm⟩ := h
  exact ⟨i, hi, p, hp, mem_peerObservations u v i.1 p m hm⟩

theorem mem_treeObservations (u : Char → Char) (t : ScopeTree) (m : Metric)
    (h : m ∈ treeObservations u t) :
    ∃ d ∈ t, m ∈ uptimeObservations u d.1 d.2 ∨ m = countObservation d := by
  unfold treeObservations domainObservations at h
  simp only [List.mem_flatMap, List.mem_append, List.mem_singleton] at h
  exact h

/-- Everything a call sends is an uptime observation of some peer or the
count observation of some domain. -/
theorem mem_channel (u : Char → Char) (doc : Option Json) (m : Metric)
    (hm : m ∈ (processPIMNeighbors u doc).1.ch) :
    (∃ (v i k : String) (val : Int),
      m = ⟨pimDesc.get? "upTime", val, [ToLower u v, ToLower u i, k]⟩) ∨
    (∃ (v : String) (n : Nat), m = ⟨pimDesc.get? "neighborCount", (n : Int), [v]⟩) := by
  have upt : ∀ v ifs, m ∈ uptimeObservations u v ifs →
      ∃ (v i k : String) (val : Int),
        m = ⟨pimDesc.get? "upTime", val, [ToLower u v, ToLower u i, k]⟩ := by
    intro v ifs h
    obtain ⟨i, _, p, _, e, _⟩ := mem_uptimeObservations u v ifs m h
    exact ⟨v, i.1, p.1, _, e⟩
  have tree : ∀ t, m ∈ treeObservations u t →
      (∃ (v i k : String) (val : Int),
        m = ⟨pimDesc.get? "upTime", val, [ToLower u v, ToLower u i, k]⟩) ∨
      (∃ (v : String) (n : Nat), m = ⟨pimDesc.get? "neighborCount", (n : Int), [v]⟩) := by
    intro t h
    obtain ⟨d, _, h1 | h1⟩ := mem_treeObservations u t m h
    · exact Or.inl (upt _ _ h1)
    · exact Or.inr ⟨d.1, peerCount d.2, h1⟩
  cases he : (processPIMNeighbors u doc).2 with
  | none =>
    obtain ⟨t, ht⟩ := (processPIMNeighbors_ok_iff u doc).1 he
    rw [(processPIMNeighbors_decoded u doc t ht).1] at hm
    exact tree t hm
  | some e =>
    obtain ⟨h1, h2⟩ := processPIMNeighbors_failed u doc e he
    cases hb : unmarshalBytes doc with
    | error je =>
      rw [(h1 je hb).1] at hm
      simp at hm
    | ok jsonMap =>
      obtain ⟨pre, x, post, tpre, ipre, _, _, e3, _⟩ := h2 jsonMap hb
      rw [e3, List.mem_append] at hm
      rcases hm with hm | hm
      · exact tree tpre hm
      · exact Or.inl (upt _ _ hm)

/-- Claim C8: every observation that `processPIMNeighbors` sends, on any
input, carries as many label values as its descriptor declares label names:
it is either sent under the upTime descriptor, whose names are
`pimNeighborLabels`, three of them, with three values, or under the
neighborCount descriptor, whose names are `pimLabels`, one of them, with one
value. -/
theorem label_count_matches_descriptor (u : Char → Char) (doc : Option Json) (m : Metric)
    (hm : m ∈ (processPIMNeighbors u doc).1.ch) :
    (∃ d, m.desc = some d ∧ m.labels.length = d.labels.length) ∧
    ((∃ d, m.desc = some d ∧ pimDesc.get? "upTime" = some d ∧ d.labels = pimNeighborLabels ∧
        pimNeighborLabels.length = 3 ∧ m.labels.length = 3) ∨
     (∃ d, m.desc = some d ∧ pimDesc.get? "neighborCount" = some d ∧ d.labels = pimLabels ∧
        pimLabels.length = 1 ∧ m.labels.length = 1)) := by
  rcases mem_channel u doc m hm with ⟨v, i, k, val, rfl⟩ | ⟨v, n, rfl⟩
  · exact ⟨⟨_, rfl, rfl⟩, Or.inl ⟨_, rfl, rfl, rfl, rfl, rfl⟩⟩
  · exact ⟨⟨_, rfl, rfl⟩, Or.inr ⟨_, rfl, rfl, rfl, rfl, rfl⟩⟩

/-- Claim C8 at the uptime observation of the end-to-end scenario of the spec. -/
theorem label_count_matches_descriptor_witness :
    (⟨pimDesc.get? "upTime", 300, ["default", "eth0", "10.0.0.1"]⟩ : Metric) ∈
      (processPIMNeighbors asciiOnly (some sampleDoc)).1.ch ∧
    ((∃ d, (⟨pimDesc.get? "upTime", 300, ["default", "eth0", "10.0.0.1"]⟩ : Metric).desc = some d ∧
      (⟨pimDesc.get? "upTime", 300, ["default", "eth0", "10.0.0.1"]⟩ : Metric).labels.length =
        d.labels.length) ∧
    ((∃ d, (⟨pimDesc.get? "upTime", 300, ["default", "eth0", "10.0.0.1"]⟩ : Metric).desc = some d ∧
        pimDesc.get? "upTime" = some d ∧ d.labels = pimNeighborLabels ∧
        pimNeighborLabels.length = 3 ∧
        (⟨pimDesc.get? "upTime", 300, ["default", "eth0", "10.0.0.1"]⟩ : Metric).labels.length = 3) ∨
     (∃ d, (⟨pimDesc.get? "upTime", 300, ["default", "eth0", "10.0.0.1"]⟩ : Metric).desc = some d ∧
        pimDesc.get? "neighborCount" = some d ∧ d.labels = pimLabels ∧
        pimLabels.length = 1 ∧
        (⟨pimDesc.get? "upTime", 300, ["default", "eth0", "10.0.0.1"]⟩ : Metric).labels.length = 1))) :=
  ⟨by decide,
   label_count_matches_descriptor asciiOnly (some sampleDoc)
     ⟨pimDesc.get? "upTime", 300, ["default", "eth0", "10.0.0.1"]⟩ (by decide)⟩

theorem peerObservations_length (u : Char → Char) (v i : String) (ns : GoMap pimNeighbor) :
    (ns.flatMap (peerObservations u v i)).length +
      (ns.filter (fun p => decide ((parseHMS p.2.UpTime).2 ≠ none))).length = ns.length := by
  induction ns with
  | nil => rfl
  | cons p rest ih =>
    simp only [List.flatMap_cons, List.length_append, List.filter_cons, List.length_cons]
    by_cases hacc : (parseHMS p.2.UpTime).2 = none
    · have hd : decide ((parseHMS p.2.UpTime).2 ≠ none) = false := by simp [hacc]
      rw [hd]
      simp only [peerObservations, hacc, if_true, List.length_singleton, Bool.false_eq_true,
        if_false]
      omega
    · have hd : decide ((parseHMS p.2.UpTime).2 ≠ none) = true := by simp [hacc]
      rw [hd]
      simp only [peerObservations, hacc, if_false, List.length_nil, if_true, List.length_cons]
      omega

theorem uptimeObservations_length (u : Char → Char) (v : String)
    (ifs : GoMap (GoMap pimNeighbor)) :
    (uptimeObservations u v ifs).length + rejectedCount ifs = peerCount ifs := by
  induction ifs with
  | nil => rfl
  | cons i rest ih =>
    have h1 := peerObservations_length u v i.1 i.2
    simp only [uptimeObservations, rejectedCount, peerCount, List.flatMap_cons,
      List.length_append, List.map_cons, List.sum_cons] at ih ⊢
    omega

/-- Claim C2: an input that decodes at all three levels makes
`processPIMNeighbors` return no error, and what it sends is, domain after
domain, one segment per domain: `N - K` uptime observations, where `N` is the
number of peers of the domain over all its interfaces and `K` the number of
those whose `UpTime` `parseHMS` rejects, followed by one count observation
(the only one of the segment) with value `N` and the single label value the
domain name as spelled in the input. -/
theorem count_correctness (u : Char → Char) (doc : Option Json) (t : ScopeTree)
    (h : decodeTree doc = .ok t) :
    (processPIMNeighbors u doc).2 = none ∧
    ∃ segs : List (List Metric),
      (processPIMNeighbors u doc).1.ch = segs.flatten ∧
      List.Forall₂ (fun (d : String × GoMap (GoMap pimNeighbor)) (seg : List Metric) =>
        ∃ ups, seg = ups ++ [⟨pimDesc.get? "neighborCount", (peerCount d.2 : Int), [d.1]⟩] ∧
          ups.length = peerCount d.2 - rejectedCount d.2 ∧
          rejectedCount d.2 ≤ peerCount d.2 ∧
          ∀ m ∈ ups, m.desc = pimDesc.get? "upTime" ∧ m.desc ≠ pimDesc.get? "neighborCount")
        t segs := by
  obtain ⟨h1, h2⟩ := processPIMNeighbors_decoded u doc t h
  refine ⟨h2, t.map (domainObservations u), ?_, ?_⟩
  · rw [h1]; rfl
  · rw [List.forall₂_map_right_iff, List.forall₂_same]
    intro d _
    have hl := uptimeObservations_length u d.1 d.2
    refine ⟨uptimeObservations u d.1 d.2, rfl, by omega, by omega, ?_⟩
    intro m hm
    obtain ⟨i, _, p, _, e, _⟩ := mem_uptimeObservations u d.1 d.2 m hm
    subst e
    exact ⟨rfl, (by decide : pimDesc.get? "upTime" ≠ pimDesc.get? "neighborCount")⟩

/-- Claim C2 at the end-to-end scenario of the spec. -/
theorem count_correctness_witness :
    (processPIMNeighbors asciiOnly (some sampleDoc)).2 = none ∧
    ∃ segs : List (List Metric),
      (processPIMNeighbors asciiOnly (some sampleDoc)).1.ch = segs.flatten ∧
      List.Forall₂ (fun (d : String × GoMap (GoMap pimNeighbor)) (seg : List Metric) =>
        ∃ ups, seg = ups ++ [⟨pimDesc.get? "neighborCount", (peerCount d.2 : Int), [d.1]⟩] ∧
          ups.length = peerCount d.2 - rejectedCount d.2 ∧
          rejectedCount d.2 ≤ peerCount d.2 ∧
          ∀ m ∈ ups, m.desc = pimDesc.get? "upTime" ∧ m.desc ≠ pimDesc.get? "neighborCount")
        sampleTree segs :=
  count_correctness asciiOnly (some sampleDoc) sampleTree (by rfl)

/-! ## Order independence -/

theorem flatMap_perm_of_forall₂ {α β γ : Type} (R : α → β → Prop) (f : α → List γ)
    (g : β → List γ) (l1 : List α) (l2 : List β) (h : List.Forall₂ R l1 l2)
    (hfg : ∀ a b, R a b → (f a).Perm (g b)) : (l1.flatMap f).Perm (l2.flatMap g) := by
  induction h with
  | nil => exact List.Perm.refl _
  | cons hab _ ih =>
    simp only [List.flatMap_cons]
    exact List.Perm.append (hfg _ _ hab) ih

theorem map_eq_of_forall₂ {α β γ : Type} (R : α → β → Prop) (f : α → γ) (g : β → γ)
    (l1 : List α) (l2 : List β) (h : List.Forall₂ R l1 l2)
    (hfg : ∀ a b, R a b → f a = g b) : l1.map f = l2.map g := by
  induction h with
  | nil => rfl
  | cons hab _ ih => simp only [List.map_cons, hfg _ _ hab, ih]

theorem Reordered_eq_perm {α : Type} (m1 m2 : GoMap α) (h : Reordered Eq m1 m2) :
    m1.Perm m2 := by
  obtain ⟨mid, hf, hp⟩ := h
  have : m1 = mid := by
    have := map_eq_of_forall₂ _ id id m1 mid hf (fun a b hab => Prod.ext hab.1 hab.2)
    simpa using this
  rw [this]
  exact hp

theorem uptimeObservations_reordered (u : Char → Char) (v : String)
    (ifs1 ifs2 : GoMap (GoMap pimNeighbor)) (h : Reordered (Reordered Eq) ifs1 ifs2) :
    (uptimeObservations u v ifs1).Perm (uptimeObservations u v ifs2) ∧
    peerCount ifs1 = peerCount ifs2 := by
  obtain ⟨mid, hf, hp⟩ := h
  constructor
  · unfold uptimeObservations
    refine List.Perm.trans (flatMap_perm_of_forall₂ _ _ _ ifs1 mid hf ?_)
      (List.Perm.flatMap_right _ hp)
    intro a b hab
    rw [hab.1]
    exact List.Perm.flatMap_right _ (Reordered_eq_perm _ _ hab.2)
  · unfold peerCount
    rw [map_eq_of_forall₂ _ (fun i => i.2.length) (fun i => i.2.length) ifs1 mid hf
      (fun a b hab => (Reordered_eq_perm _ _ hab.2).length_eq)]
    exact (hp.map _).sum_eq

theorem treeObservations_reordered (u : Char → Char) (t1 t2 : ScopeTree)
    (h : TreeReordered t1 t2) : (treeObservations u t1).Perm (treeObservations u t2) := by
  obtain ⟨mid, hf, hp⟩ := h
  unfold treeObservations
  refine List.Perm.trans (flatMap_perm_of_forall₂ _ _ _ t1 mid hf ?_)
    (List.Perm.flatMap_right _ hp)
  intro a b hab
  obtain ⟨p1, p2⟩ := uptimeObservations_reordered u a.1 a.2 b.2 hab.2
  unfold domainObservations countObservation
  rw [← hab.1, ← p2]
  exact List.Perm.append p1 (List.Perm.refl _)

/-- Claim C6: for two inputs that decode to the same scope tree up to the
order in which the domains, the interfaces of a domain and the peers of an
interface are visited, the observations sent are a permutation of one
another: the multiset of observations does not depend on the traversal
order. -/
theorem flattening_order_independent (u : Char → Char) (doc1 doc2 : Option Json)
    (t1 t2 : ScopeTree) (h1 : decodeTree doc1 = .ok t1) (h2 : decodeTree doc2 = .ok t2)
    (hr : TreeReordered t1 t2) :
    ((processPIMNeighbors u doc1).1.ch).Perm ((processPIMNeighbors u doc2).1.ch) := by
  rw [(processPIMNeighbors_decoded u doc1 t1 h1).1, (processPIMNeighbors_decoded u doc2 t2 h2).1]
  exact treeObservations_reordered u t1 t2 hr

/-- Claim C6 at a document and the same document with every object reversed. -/
theorem flattening_order_independent_witness :
    decodeTree (some orderDocA) = .ok orderTreeA ∧
    decodeTree (some orderDocB) = .ok orderTreeB ∧
    ((processPIMNeighbors asciiOnly (some orderDocA)).1.ch).Perm
      ((processPIMNeighbors asciiOnly (some orderDocB)).1.ch) :=
  ⟨by rfl, by rfl,
   flattening_order_independent asciiOnly (some orderDocA) (some orderDocB) orderTreeA orderTreeB
    (by rfl) (by rfl)
    ⟨[("a", [("e1", []),
          ("e0", [("10.0.0.2", ⟨"", "", "x"⟩), ("10.0.0.1", ⟨"", "", "0:00:01"⟩)])]),
      ("b", [])],
     List.Forall₂.cons
       ⟨rfl,
        ⟨[("e0", [("10.0.0.2", ⟨"", "", "x"⟩), ("10.0.0.1", ⟨"", "", "0:00:01"⟩)]), ("e1", [])],
         List.Forall₂.cons
           ⟨rfl, ⟨_, List.Forall₂.cons ⟨rfl, rfl⟩ (List.Forall₂.cons ⟨rfl, rfl⟩ List.Forall₂.nil),
             List.Perm.swap _ _ _⟩⟩
           (List.Forall₂.cons ⟨rfl, ⟨[], List.Forall₂.nil, List.Perm.nil⟩⟩ List.Forall₂.nil),
         List.Perm.swap _ _ _⟩⟩
       (List.Forall₂.cons ⟨rfl, ⟨[], List.Forall₂.nil, List.Perm.nil⟩⟩ List.Forall₂.nil),
     List.Perm.swap _ _ _⟩⟩

/-! ## Distinct label vectors -/

theorem GoMap.set_keys {α : Type} (m : GoMap α) (k : String) (v : α) :
    (m.set k v).map Prod.fst =
      if k ∈ m.map Prod.fst then m.map Prod.fst else m.map Prod.fst ++ [k] := by
  induction m with
  | nil => simp [GoMap.set]
  | cons p rest ih =>
    obtain ⟨k1, v1⟩ := p
    unfold GoMap.set
    by_cases hk : k1 = k
    · subst hk
      simp
    · have hk2 : ¬ k = k1 := fun h => hk h.symm
      simp only [hk, if_false, List.map_cons, ih, List.mem_cons, hk2, false_or]
      split_ifs <;> simp

theorem GoMap.set_nodup {α : Type} (m : GoMap α) (k : String) (v : α)
    (h : (m.map Prod.fst).Nodup) : ((m.set k v).map Prod.fst).Nodup := by
  rw [GoMap.set_keys]
  split_ifs with hk
  · exact h
  · exact List.Nodup.append h (List.nodup_singleton k) (by simpa using hk)

theorem decodeNeighborEntries_nodup :
    ∀ (members : List (String × Json)) (m m1 : GoMap pimNeighbor),
      (m.map Prod.fst).Nodup → decodeNeighborEntries m members = .ok m1 →
      (m1.map Prod.fst).Nodup := by
  intro members
  induction members with
  | nil =>
    intro m m1 hm h
    simp only [decodeNeighborEntries, Except.ok.injEq] at h
    subst h
    exact hm
  | cons kv rest ih =>
    intro m m1 hm h
    unfold decodeNeighborEntries at h
    cases hd : decodeNeighbor kv.2 with
    | error e => simp [hd] at h
    | ok nb =>
      simp only [hd] at h
      exact ih _ m1 (GoMap.set_nodup m kv.1 nb hm) h

theorem unmarshalNeighbors_nodup (raw : Json) (m : GoMap pimNeighbor)
    (h : unmarshalNeighbors raw = .ok m) : (m.map Prod.fst).Nodup := by
  cases raw with
  | null =>
    simp only [unmarshalNeighbors, Except.ok.injEq] at h
    subst h
    exact List.nodup_nil
  | object members =>
    simp only [unmarshalNeighbors] at h
    exact decodeNeighborEntries_nodup members [] m List.nodup_nil h
  | bool b => simp [unmarshalNeighbors] at h
  | number n => simp [unmarshalNeighbors] at h
  | string str => simp [unmarshalNeighbors] at h
  | array xs => simp [unmarshalNeighbors] at h

theorem decodeIfaces_nodup :
    ∀ (ifs : GoMap Json) (t : GoMap (GoMap pimNeighbor)), decodeIfaces ifs = .ok t →
      ∀ i ∈ t, (i.2.map Prod.fst).Nodup := by
  intro ifs
  induction ifs with
  | nil =>
    intro t h
    simp only [decodeIfaces, Except.ok.injEq] at h
    subst h
    simp
  | cons p rest ih =>
    intro t h
    obtain ⟨name, raw⟩ := p
    unfold decodeIfaces at h
    cases hn : unmarshalNeighbors raw with
    | error e => simp [hn] at h
    | ok nbs =>
      simp only [hn] at h
      cases hr : decodeIfaces rest with
      | error e => simp [hr] at h
      | ok t1 =>
        simp only [hr, Except.ok.injEq] at h
        subst h
        intro i hi
        simp only [List.mem_cons] at hi
        rcases hi with rfl | hi
        · exact unmarshalNeighbors_nodup raw nbs hn
        · exact ih t1 hr i hi

theorem decodeVrfs_nodup :
    ∀ (m : GoMap Json) (t : ScopeTree), decodeVrfs m = .ok t →
      ∀ d ∈ t, ∀ i ∈ d.2, (i.2.map Prod.fst).Nodup := by
  intro m
  induction m with
  | nil =>
    intro t h
    simp only [decodeVrfs, Except.ok.injEq] at h
    subst h
    simp
  | cons p rest ih =>
    intro t h
    obtain ⟨name, raw⟩ := p
    unfold decodeVrfs at h
    cases hm : unmarshalRawMap raw with
    | error e => simp [hm] at h
    | ok inst =>
      simp only [hm] at h
      cases hi : decodeIfaces inst with
      | error e => simp [hi] at h
      | ok ifs =>
        simp only [hi] at h
        cases hr : decodeVrfs rest with
        | error e => simp [hr] at h
        | ok t1 =>
          simp only [hr, Except.ok.injEq] at h
          subst h
          intro d hd
          simp only [List.mem_cons] at hd
          rcases hd with rfl | hd
          · exact decodeIfaces_nodup inst ifs hi
          · exact ih t1 hr d hd

/-- The peers of every interface of a decoded tree have pairwise distinct keys. -/
theorem decodeTree_nodup (doc : Option Json) (t : ScopeTree) (h : decodeTree doc = .ok t) :
    ∀ d ∈ t, ∀ i ∈ d.2, (i.2.map Prod.fst).Nodup := by
  unfold decodeTree at h
  cases hb : unmarshalBytes doc with
  | error e => simp [hb] at h
  | ok m =>
    simp only [hb] at h
    exact decodeVrfs_nodup m t h

theorem uptimeLabelVectors_append (a b : List Metric) :
    uptimeLabelVectors (a ++ b) = uptimeLabelVectors a ++ uptimeLabelVectors b := by
  simp [uptimeLabelVectors]

theorem uptimeLabelVectors_flatMap {α : Type} (l : List α) (f : α → List Metric) :
    uptimeLabelVectors (l.flatMap f) = l.flatMap (fun a => uptimeLabelVectors (f a)) := by
  induction l with
  | nil => rfl
  | cons a rest ih => simp only [List.flatMap_cons, uptimeLabelVectors_append, ih]

theorem uptimeLabelVectors_peer (u : Char → Char) (v i : String) (p : String × pimNeighbor) :
    uptimeLabelVectors (peerObservations u v i p) =
      if (parseHMS p.2.UpTime).2 = none then [[ToLower u v, ToLower u i, p.1]] else [] := by
  unfold peerObservations
  split_ifs
  · simp [uptimeLabelVectors]
  · rfl

theorem uptimeLabelVectors_count (d : String × GoMap (GoMap pimNeighbor)) :
    uptimeLabelVectors [countObservation d] = [] := by
  have hne : ¬ (pimDesc.get? "neighborCount" = pimDesc.get? "upTime") := by decide
  simp [uptimeLabelVectors, countObservation, hne]

theorem uptimeLabelVectors_tree (u : Char → Char) (t : ScopeTree) :
    uptimeLabelVectors (treeObservations u t) =
      t.flatMap (fun d => d.2.flatMap (fun i => i.2.flatMap (fun p =>
        if (parseHMS p.2.UpTime).2 = none then [[ToLower u d.1, ToLower u i.1, p.1]]
        else []))) := by
  unfold treeObservations domainObservations uptimeObservations
  simp only [uptimeLabelVectors_flatMap, uptimeLabelVectors_append, uptimeLabelVectors_count,
    List.append_nil, uptimeLabelVectors_peer]

theorem nodup_flatMap_of_key {α β κ : Type} (l : List α) (key : α → κ) (f : α → List β)
    (proj : β → κ) (hkey : (l.map key).Nodup) (hf : ∀ a ∈ l, (f a).Nodup)
    (hproj : ∀ a, ∀ x ∈ f a, proj x = key a) : (l.flatMap f).Nodup := by
  rw [List.nodup_flatMap]
  refine ⟨hf, ?_⟩
  have hp : List.Pairwise (fun a b => key a ≠ key b) l := List.pairwise_map.1 hkey
  refine hp.imp ?_
  intro a b hab
  show List.Disjoint (f a) (f b)
  intro x hxa hxb
  exact hab ((hproj a x hxa).symm.trans (hproj b x hxb))

/-- Claim C10, as stated, fails: two VRFs whose names differ only in letter
case, with the same interface and peer, give two uptime observations with the
same label vector, although the keys are distinct at each level. -/
theorem lowercase_label_collision :
    decodeTree (some collisionDoc) = .ok collisionTree ∧
    (collisionTree.map Prod.fst).Nodup ∧
    (∀ d ∈ collisionTree, (d.2.map Prod.fst).Nodup ∧ ∀ i ∈ d.2, (i.2.map Prod.fst).Nodup) ∧
    uptimeLabelVectors (processPIMNeighbors asciiOnly (some collisionDoc)).1.ch =
      [["a", "eth0", "10.0.0.1"], ["a", "eth0", "10.0.0.1"]] ∧
    ¬ (uptimeLabelVectors (processPIMNeighbors asciiOnly (some collisionDoc)).1.ch).Nodup := by
  refine ⟨by rfl, by decide, by decide, by decide, by decide⟩

/-- Claim C10, amended: for a fully decodable input in which no two domain
names have the same lower-case form and, within each domain, no two interface
names have the same lower-case form, the uptime observations sent by one call
have pairwise distinct label vectors. -/
theorem uptime_label_vectors_distinct (u : Char → Char) (doc : Option Json) (t : ScopeTree)
    (h : decodeTree doc = .ok t)
    (hd : (t.map (fun d => ToLower u d.1)).Nodup)
    (hi : ∀ d ∈ t, (d.2.map (fun i => ToLower u i.1)).Nodup) :
    (uptimeLabelVectors (processPIMNeighbors u doc).1.ch).Nodup := by
  rw [(processPIMNeighbors_decoded u doc t h).1, uptimeLabelVectors_tree]
  have hp := decodeTree_nodup doc t h
  refine nodup_flatMap_of_key t (fun d => ToLower u d.1) _ (fun x => x.headD "") hd ?_ ?_
  · intro d hdt
    refine nodup_flatMap_of_key d.2 (fun i => ToLower u i.1) _ (fun x => (x.tail).headD "")
      (hi d hdt) ?_ ?_
    · intro i hit
      refine nodup_flatMap_of_key i.2 (fun p => p.1) _ (fun x => (x.tail.tail).headD "")
        (hp d hdt i hit) ?_ ?_
      · intro p _
        split_ifs
        · exact List.nodup_singleton _
        · exact List.nodup_nil
      · intro p x hx
        split_ifs at hx
        · simp only [List.mem_singleton] at hx
          subst hx; rfl
        · simp at hx
    · intro i x hx
      simp only [List.mem_flatMap] at hx
      obtain ⟨p, _, hx⟩ := hx
      split_ifs at hx
      · simp only [List.mem_singleton] at hx
        subst hx; rfl
      · simp at hx
  · intro d x hx
    simp only [List.mem_flatMap] at hx
    obtain ⟨i, _, p, _, hx⟩ := hx
    split_ifs at hx
    · simp only [List.mem_singleton] at hx
      subst hx; rfl
    · simp at hx

/-- Claim C10, amended, at a document with two domains, two interfaces and
two peers: the same interface and peer under the two domains, and the same
peer under the two interfaces of one domain, give four distinct label
vectors. -/
theorem uptime_label_vectors_distinct_witness :
    decodeTree (some mixedCaseDoc) = .ok mixedCaseTree ∧
    (mixedCaseTree.map (fun d => ToLower asciiOnly d.1)).Nodup ∧
    (∀ d ∈ mixedCaseTree, (d.2.map (fun i => ToLower asciiOnly i.1)).Nodup) ∧
    uptimeLabelVectors (processPIMNeighbors asciiOnly (some mixedCaseDoc)).1.ch =
      [["red", "eth0", "FE80::A"], ["red", "eth0", "10.0.0.2"], ["red", "eth1", "FE80::A"],
       ["blue", "eth0", "FE80::A"]] ∧
    (uptimeLabelVectors (processPIMNeighbors asciiOnly (some mixedCaseDoc)).1.ch).Nodup :=
  ⟨by rfl, by decide, by decide, by decide,
   uptime_label_vectors_distinct asciiOnly (some mixedCaseDoc) mixedCaseTree (by rfl) (by decide)
     (by decide)⟩

end Collector
